import Mathlib

/-! Verification of the board engine, scoring, validation and round logic of
the generalized N-dimensional 2048 implementation in `src/2048.py`.

The Python data structures are shallowly embedded: nested tile lists become
the nested inductive `Tiles`; coordinate access mirrors `Board.__get_tile`
and `Board.__set_tile`; the mutating algorithms (`Board.move`, `Board.place`,
board construction, `Round.get_score`, the `Round.start`
turn loop, the attacker payload validation) are translated into pure
state-passing functions.  Randomness (`random.randint(0,9)`) is passed in as
an explicit parameter; the inner recursion of `move_tile`, which in Python
terminates because every step moves one cell closer to a wall, is given the
explicit fuel `shape[dimension]`, an upper bound on the length of any slide.
Floating point `math.log(x, 2)` is not given a model of its own: the
claimed scoring formula is stated with the exact integer floor logarithm
`log2N`, and the IEEE-754 int-to-double rounding that `math.log` applies to
its integer argument is embedded as `roundDouble`; where the binary64
evaluation makes the program diverge from the exact formulas (values near
`2 ^ 53`), the divergence is recorded as a code bug rather than modelled. -/

/-! ## The tile container

`Board.__tiles` is a nested Python list whose leaves are ints.  `getTile`
walks a coordinate exactly like `Board.__get_tile` (one index per
dimension); `setTile` mirrors `Board.__set_tile` (walk to the last
dimension, assign the final index).  Both are total: an access the Python
code would crash on returns a default that no theorem relies on. -/
inductive Tiles where
  | leaf (n : Int)
  | node (ts : List Tiles)
deriving Repr
def getTile : Tiles → List Nat → Int
  | .leaf n, [] => n
  | .leaf _, _ :: _ => 0
  | .node _, [] => 0
  | .node ts, i :: rest => getTile (ts.getD i (.leaf 0)) rest
def setTile : Tiles → List Nat → Int → Tiles
  | .leaf _, [], v => .leaf v
  | .leaf n, _ :: _, _ => .leaf n
  | .node ts, [], _ => .node ts
  | .node ts, i :: rest, v => .node (ts.set i (setTile (ts.getD i (.leaf 0)) rest v))

/-! ## Shape conformance and coordinate bounds -/

/-- A tree is regular for a shape when every level has exactly the declared
number of children and leaves sit exactly at the deepest level.  This is the
well-formedness that `Board.__init__` guarantees for `self.__tiles`. -/
def regular : List Nat → Tiles → Bool
  | [], .leaf _ => true
  | [], .node _ => false
  | _ :: _, .leaf _ => false
  | d :: rest, .node ts => ts.length == d && ts.all (fun t => regular rest t)

/-- A coordinate is in bounds for a shape: same length, each component below
the corresponding dimension length. -/
def inb : List Nat → List Nat → Bool
  | [], [] => true
  | i :: a, d :: s => i < d && inb a s
  | _, _ => false

/-! ## Coordinate enumeration and global measures

`allCoords shape` enumerates every in-bounds coordinate once.  It is the
index set over which board-global quantities (total value, sliding
potential) are computed. -/
def allCoords : List Nat → List (List Nat)
  | [] => [[]]
  | d :: rest => (List.range d).flatMap fun i => (allCoords rest).map (fun c => i :: c)

/-- Total value of the board: the sum of `getTile` over every in-bounds
coordinate.  For regular trees this is the sum of all tile leaves. -/
def totalSum (shape : List Nat) (t : Tiles) : Int :=
  ((allCoords shape).map (fun c => getTile t c)).sum

/-! ## The sliding potential

Each nonzero cell contributes `1` plus its distance to the wall it slides
towards.  Every relocation and every merge performed by `move` strictly
decreases this potential, which is what makes the returned flag faithful:
`steps > 0` forces the board to have changed. -/
def distToWall (dimLen : Nat) (direction : Int) (i : Nat) : Int :=
  if direction = -1 then (i : Int) else (dimLen : Int) - 1 - (i : Int)
def contrib (dimLen : Nat) (direction : Int) (i : Nat) (v : Int) : Int :=
  if v = 0 then 0 else 1 + distToWall dimLen direction i
def phi (shape : List Nat) (dimension : Nat) (direction : Int) (t : Tiles) : Int :=
  ((allCoords shape).map
    (fun c => contrib (shape.getD dimension 0) direction (c.getD dimension 0) (getTile t c))).sum

/-! ## Sequential coordinate generation

`Board.__generate_sequential_coordinates` fills, for every linear index
`idx` below the tile count, one coordinate whose component at each
dimension is an integer-division/modulus expression; the component of the
moved dimension is order-reversed when the direction is `+1`, so that cells
closest to the destination wall are processed first. -/
def coordFrom : List Nat → Nat → Nat → Int → Nat → Nat → List Nat
  | [], _, _, _, _, _ => []
  | dimLen :: rest, dim, dimension, direction, fraction, idx =>
    let fr := fraction / dimLen
    (if direction = -1 ∨ dimension ≠ dim then idx / fr % dimLen
     else dimLen - 1 - idx / fr % dimLen) ::
      coordFrom rest (dim + 1) dimension direction fr idx

/-- The tile count in the source is the running product of the dimension
lengths; the per-dimension `fraction` is that product successively divided,
exactly as in the Python loop. -/
def generate_sequential_coordinates (shape : List Nat) (dimension : Nat) (direction : Int) :
    List (List Nat) :=
  (List.range shape.prod).map (fun idx => coordFrom shape 0 dimension direction shape.prod idx)

/-! ## The board and the move algorithm

`MSt` is the mutable state of one `Board.move` call: the tile tree plus the
`blocked_coordinates` list of cells that have already been the destination
of a merge in this call.  `move_tile` is the inner recursive helper; it also
reports the number of elementary steps it performed (the Python `steps`
counter) and, as a proof artefact only, a chronological trace of the merge
and relocation events with their destination cells. -/
structure Board where
  shape : List Nat
  tiles : Tiles
deriving Repr

/-- Well-formedness every constructed board satisfies: the tile tree matches
the shape and every dimension length is positive (construction enforces
lengths in `[2,10]`). -/
def Board.WF (b : Board) : Prop :=
  regular b.shape b.tiles = true ∧ ∀ d ∈ b.shape, 0 < d
inductive MoveEvent where
  | merge (c : List Nat)
  | relocate (c : List Nat)
deriving Repr, DecidableEq
def MoveEvent.target : MoveEvent → List Nat
  | .merge c => c
  | .relocate c => c
def mergeTargets (evs : List MoveEvent) : List (List Nat) :=
  evs.filterMap (fun e => match e with | .merge c => some c | .relocate _ => none)
structure MSt where
  tiles : Tiles
  blocked : List (List Nat)
def wallIndex (shape : List Nat) (dimension : Nat) (direction : Int) : Nat :=
  if direction = -1 then 0 else shape.getD dimension 0 - 1
def stepIndex (direction : Int) (i : Nat) : Nat :=
  if direction = -1 then i - 1 else i + 1
def move_tile (shape : List Nat) (dimension : Nat) (direction : Int) :
    Nat → List Nat → MSt → MSt × Nat × List MoveEvent
  | 0, _, st => (st, 0, [])
  | fuel + 1, coordinate, st =>
    if coordinate.getD dimension 0 = wallIndex shape dimension direction then (st, 0, [])
    else
      let source := getTile st.tiles coordinate
      if source = 0 then (st, 0, [])
      else
        let target_coordinate :=
          coordinate.set dimension (stepIndex direction (coordinate.getD dimension 0))
        if target_coordinate ∈ st.blocked then (st, 0, [])
        else
          let target := getTile st.tiles target_coordinate
          if source = target then
            (⟨setTile (setTile st.tiles target_coordinate (target * 2)) coordinate 0,
                st.blocked ++ [target_coordinate]⟩, 1, [.merge target_coordinate])
          else if target = 0 then
            let st1 : MSt :=
              ⟨setTile (setTile st.tiles target_coordinate source) coordinate 0, st.blocked⟩
            let r := move_tile shape dimension direction fuel target_coordinate st1
            (r.1, 1 + r.2.1, .relocate target_coordinate :: r.2.2)
          else (st, 0, [])
def moveFold (shape : List Nat) (dimension : Nat) (direction : Int) :
    List (List Nat) → MSt → MSt × Nat × List MoveEvent
  | [], st => (st, 0, [])
  | c :: rest, st =>
    let r1 := move_tile shape dimension direction (shape.getD dimension 0) c st
    let r2 := moveFold shape dimension direction rest r1.1
    (r2.1, r1.2.1 + r2.2.1, r1.2.2 ++ r2.2.2)

/-- `Board.move` together with its step count and event trace.  The checks
on `dimension` and `direction` are those at the top of the Python method;
an invalid argument returns `False` without touching the board. -/
def Board.moveFull (b : Board) (dimension direction : Int) : Board × Bool × List MoveEvent :=
  if 0 ≤ dimension ∧ dimension < (b.shape.length : Int) then
    if direction = -1 ∨ direction = 1 then
      let dim := dimension.toNat
      let r := moveFold b.shape dim direction
        (generate_sequential_coordinates b.shape dim direction) ⟨b.tiles, []⟩
      (⟨b.shape, r.1.tiles⟩, decide (0 < r.2.1), r.2.2)
    else (b, false, [])
  else (b, false, [])
def Board.move (b : Board) (dimension direction : Int) : Board × Bool :=
  ((b.moveFull dimension direction).1, (b.moveFull dimension direction).2.1)

/-! ## The merge-once discipline of a whole trace -/

/-- No event after a merge into a cell ever targets that cell again. -/
def NoRetarget (evs : List MoveEvent) : Prop :=
  ∀ l₁ c l₂, evs = l₁ ++ MoveEvent.merge c :: l₂ → ∀ e ∈ l₂, e.target ≠ c

/-! ## Placing a new number

`Board.place` validates the coordinate (length, integer components, bounds)
and writes a fresh 2 — or a 4 in the ten percent case — into a zero cell.
The draw `random.randint(0,9)` is the explicit argument `roll`; the source
places 2 when the draw is below 9. -/

def locationOk : List Int → List Nat → Bool
  | [], [] => true
  | l :: lr, s :: sr => if 0 ≤ l ∧ l < (s : Int) then locationOk lr sr else false
  | _, _ => false

def Board.place (b : Board) (location : List Int) (roll : Nat) : Board × Bool :=
  if location.length ≠ b.shape.length then (b, false)
  else if locationOk location b.shape = false then (b, false)
  else if getTile b.tiles (location.map Int.toNat) = 0 then
    (⟨b.shape, setTile b.tiles (location.map Int.toNat) (if roll < 9 then 2 else 4)⟩, true)
  else (b, false)

/-! ## Construction from a shape -/

/-- The fully zeroed grid the source builds inside out with
`tile=[deepcopy(tile) for count in range(self.__shape[dim])]`. -/
def zeroTiles : List Nat → Tiles
  | [] => .leaf 0
  | d :: rest => .node (List.replicate d (zeroTiles rest))

def Board.ofShape (shape : List Int) : Except String Board :=
  if shape.length = 0 then .error "Shape is not properly specified"
  else if 4 < shape.length then .error "Shape is not allowed to be more than 4 dimensions"
  else if ¬ (∀ d ∈ shape, 2 ≤ d ∧ d ≤ 10) then .error "Shape is too small or too large"
  else .ok ⟨shape.map Int.toNat, zeroTiles (shape.map Int.toNat)⟩

/-! ## Explicit layouts: the serialization ceiling and the float check

`Board.__init__` rejects a layout whose Python string form exceeds 200
characters before validating it; the string length of a nested int list is
reproduced arithmetically by `reprLen`.  The per-value test of
`validate_tiles`, `x < 0 or math.log(x, 2) % 1 != 0`, evaluates the
logarithm in binary64 floating point; `math.log` first converts its integer
argument to the nearest double, and that conversion — exactly specified by
IEEE-754 and independent of the platform logarithm — is embedded below as
`roundDouble`. -/

def digitsLenAux : Nat → Nat → Nat
  | 0, _ => 1
  | fuel + 1, n => if n < 10 then 1 else 1 + digitsLenAux fuel (n / 10)

/-- Length of `str(v)` for a Python int. -/
def intReprLen (v : Int) : Nat :=
  if v < 0 then 1 + digitsLenAux v.natAbs v.natAbs else digitsLenAux v.toNat v.toNat

mutual
/-- Length of `str(x)` for a nested list of ints: brackets, items, and one
comma-space separator between adjacent items. -/
def reprLen : Tiles → Nat
  | .leaf v => intReprLen v
  | .node ts => 2 + reprLenItems ts
def reprLenItems : List Tiles → Nat
  | [] => 0
  | [t] => reprLen t
  | t :: rest => reprLen t + 2 + reprLenItems rest
end

/-! ## Scoring

`Round.get_score` folds over the nested list depth first with an
accumulator.  `get_score` reproduces that fold with the per-leaf factor
`int(log(T,2) - 1)` taken as the exact `log2N T - 1`: exact on the
power-of-two tiles that `place` and `move` produce, while CPython evaluates
the logarithm in binary64, which departs from the exact value on certain
non-power-of-two leaves that only float-validated layouts contain (see the
C5 theorem).  `scoreSpec` is the claimed formula itself: the depth-first
sum of the truncated `T * (log2 T - 1)`, with the exact logarithm the claim
text denotes.  A negative leaf would crash the Python source inside
`math.log`, so the value chosen for it here is irrelevant. -/

def log2Aux : Nat → Nat → Nat
  | 0, _ => 0
  | fuel + 1, n => if 2 ≤ n then log2Aux fuel (n / 2) + 1 else 0

/-- Exact floor base-2 logarithm, `log2N (2 ^ k) = k`. -/
def log2N (n : Nat) : Nat := log2Aux n n

/-- The binary64 value of a nonnegative integer, as `float(x)` and the
argument conversion inside `math.log` compute it: keep the top 53
significant bits, rounding to nearest with ties to even.  Values below
`2 ^ 53` are exact, and the overflow to infinity beyond `2 ^ 1024` is
out of reach at the magnitudes the 200-character ceiling admits. -/
def roundDouble (x : Nat) : Nat :=
  if x < 2 ^ 53 then x
  else
    let s := log2N x - 52
    let q := x / 2 ^ s
    let r := x % 2 ^ s
    (if 2 ^ s < 2 * r ∨ (2 * r = 2 ^ s ∧ q % 2 = 1) then q + 1 else q) * 2 ^ s

/-- The per-leaf term of the claimed formula: `0` for an empty cell, the
truncated `T * (log2 T - 1)` with the exact logarithm otherwise. -/
def scoreTerm (v : Int) : Int :=
  if v = 0 then 0 else v * ((log2N v.toNat : Int) - 1)

mutual
def get_score : Tiles → Int → Int
  | .leaf v, score => score + scoreTerm v
  | .node ts, score => get_scoreList ts score
def get_scoreList : List Tiles → Int → Int
  | [], score => score
  | t :: rest, score => get_scoreList rest (get_score t score)
end

mutual
/-- The specification formula: the plain depth-first sum, over every tile
`T`, of `0` when `T = 0` and `T * (log2 T - 1)` truncated to an integer
otherwise. -/
def scoreSpec : Tiles → Int
  | .leaf v => scoreTerm v
  | .node ts => scoreSpecList ts
def scoreSpecList : List Tiles → Int
  | [] => 0
  | t :: rest => scoreSpec t + scoreSpecList rest
end

/-! ## Lines of a board

A line is the set of cells agreeing with a base coordinate everywhere
except along the moved dimension; `lineVals` lists its values in order of
the index along that dimension. -/

def lineVals (b : Board) (dim : Nat) (base : List Nat) : List Int :=
  (List.range (b.shape.getD dim 0)).map (fun i => getTile b.tiles (base.set dim i))

def hasZeroThenNonzero : List Int → Bool
  | [] => false
  | a :: rest => (a == 0 && rest.any (fun x => x != 0)) || hasZeroThenNonzero rest

def hasNonzeroThenZero : List Int → Bool
  | [] => false
  | a :: rest => (a != 0 && rest.any (fun x => x == 0)) || hasNonzeroThenZero rest

/-- Some empty cell of the line is reachable in the movement direction:
for direction `-1` an empty cell with a nonzero cell somewhere after it,
for direction `+1` a nonzero cell with an empty cell somewhere after it. -/
def reachableEmpty (direction : Int) (vals : List Int) : Bool :=
  if direction = -1 then hasZeroThenNonzero vals else hasNonzeroThenZero vals

/-- No two adjacent cells of the line hold equal nonzero values, so no merge
is possible inside the line. -/
def noAdjEqual : List Int → Bool
  | a :: b :: rest => (a != b || a == 0) && noAdjEqual (b :: rest)
  | _ => true

/-! ## Attacker payload validation

A Python value as far as `Base_Attacker.get_place_instruction` inspects
one: the validation looks at the outer type, the dict size and keys, the
type of `keepgoing` and the type of `location`.  The per-element integer
check of the location list in the source (lines 383-385) is unreachable:
it is indented under the `raise` on line 382, and is therefore not part of
the embedded semantics. -/

inductive PyVal where
  | pyInt (n : Int)
  | pyBool (b : Bool)
  | pyStr (s : String)
  | pyNone
  | pyList (items : List PyVal)
  | pyDict (entries : List (String × PyVal))

def lookupKey : List (String × PyVal) → String → Option PyVal
  | [], _ => none
  | (k, v) :: rest, key => if k = key then some v else lookupKey rest key

def get_place_instruction (decision : PyVal) : Except String PyVal :=
  match decision with
  | .pyDict entries =>
    if entries.length ≠ 2 then .error "place_instruction does not have two members only"
    else if (lookupKey entries "keepgoing").isNone || (lookupKey entries "location").isNone then
      .error "place_instruction does not have expected members"
    else match lookupKey entries "keepgoing" with
      | some (.pyBool kg) =>
        if kg then
          match lookupKey entries "location" with
          | some (.pyList _) => .ok decision
          | _ => .error "place location is not a list"
        else .ok decision
      | _ => .error "place keepgoing is not a bool"
  | _ => .error "place_instruction is not a dictionary"

/-! ## The turn loop of `Round.start`

The loop skeleton of `Round.start` with the two providers abstracted as
pure total functions from the tile snapshot to a well-formed decision (the
premise of every claim about it), the random draws of `place` as a stream,
and the two nested retry loops bounded by explicit fuel.  The ghost outputs
count how often each provider was queried; `none` means the fuel ran out
before the round ended. -/

structure PlaceDecision where
  keepgoing : Bool
  location : List Int

structure MoveDecision where
  keepgoing : Bool
  dimension : Int
  direction : Int

inductive Phase where
  | attack
  | defend

def roundLoop (attacker : Tiles → PlaceDecision) (defender : Tiles → MoveDecision)
    (rolls : Nat → Nat) : Nat → Phase → Board → Nat → Nat → Option (Int × Board × Nat × Nat)
  | 0, _, _, _, _ => none
  | fuel + 1, .attack, b, aq, dq =>
    let ins := attacker b.tiles
    if ins.keepgoing then
      let pr := b.place ins.location (rolls aq)
      if pr.2 then roundLoop attacker defender rolls fuel .defend pr.1 (aq + 1) dq
      else roundLoop attacker defender rolls fuel .attack b (aq + 1) dq
    else some (get_score b.tiles 0, b, aq + 1, dq)
  | fuel + 1, .defend, b, aq, dq =>
    let ins := defender b.tiles
    if ins.keepgoing then
      let mr := b.move ins.dimension ins.direction
      if mr.2 then roundLoop attacker defender rolls fuel .attack mr.1 aq (dq + 1)
      else roundLoop attacker defender rolls fuel .defend b aq (dq + 1)
    else some (get_score b.tiles 0, b, aq, dq + 1)

/-- The empty 2 by 2 board of concrete scenario 1. -/
def board22 : Board :=
  ⟨[2, 2], .node [.node [.leaf 0, .leaf 0], .node [.leaf 0, .leaf 0]]⟩

/-! ## A heap model for the deep copy of the loaded layout

`Board.__init__` stores `deepcopy(load_tiles)`.  To state that the board
does not alias the caller's nested list, Python lists are modelled as
addresses into a store: a store is a list of objects, an object is a list
of cells, and a cell is either an int or a reference to another object.
`matz` materializes the tree reachable from an address (with fuel bounding
the depth), `deepcopyA` is `copy.deepcopy` (fresh addresses only),
`followH` and `setTileH` are `Board.__set_tile` acting through references,
and `applyWrites` is an arbitrary sequence of such writes - which is all
that `place` and `move` ever do to the tile structure. -/

inductive Cell where
  | val (n : Int)
  | ref (a : Nat)
deriving Repr, DecidableEq

def matz : List (List Cell) → Nat → Nat → Tiles
  | _, 0, _ => .leaf 0
  | H, fuel + 1, a => .node ((H.getD a []).map (fun c => match c with
      | .val n => .leaf n
      | .ref b => matz H fuel b))

def cellMatz (H : List (List Cell)) (fuel : Nat) : Cell → Tiles
  | .val n => .leaf n
  | .ref b => matz H fuel b

mutual
def deepcopyA : Nat → List (List Cell) → Nat → List (List Cell) × Nat
  | 0, H, _ => (H ++ [[]], H.length)
  | fuel + 1, H, a =>
    let r := copyCells fuel H (H.getD a [])
    (r.1 ++ [r.2], r.1.length)
  termination_by fuel _ _ => (fuel, 0, 0)
def copyCells : Nat → List (List Cell) → List Cell → List (List Cell) × List Cell
  | _, H, [] => (H, [])
  | fuel, H, .val n :: rest =>
    let r := copyCells fuel H rest
    (r.1, .val n :: r.2)
  | fuel, H, .ref b :: rest =>
    let rb := deepcopyA fuel H b
    let r := copyCells fuel rb.1 rest
    (r.1, .ref rb.2 :: r.2)
  termination_by fuel _ cells => (fuel, 1, cells.length)
end

def followH (H : List (List Cell)) : Nat → List Nat → Option Nat
  | a, [] => some a
  | a, i :: rest =>
    match (H.getD a []).getD i (.val 0) with
    | .ref b => followH H b rest
    | .val _ => none

/-- `Board.__set_tile` on the heap: walk all but the last coordinate
through references, then assign an int into the final index. -/
def setTileH (H : List (List Cell)) (a : Nat) (loc : List Nat) (v : Int) :
    List (List Cell) :=
  match loc.getLast? with
  | none => H
  | some last =>
    match followH H a loc.dropLast with
    | none => H
    | some addr => H.set addr ((H.getD addr []).set last (.val v))

def applyWrites (H : List (List Cell)) (a : Nat) :
    List (List Nat × Int) → List (List Cell)
  | [] => H
  | (loc, v) :: rest => applyWrites (setTileH H a loc v) a rest

/-- Every reference in the store points to an existing object. -/
def closedHeap (H : List (List Cell)) : Bool :=
  H.all (fun obj => obj.all (fun c => match c with
    | .ref b => b < H.length
    | .val _ => true))

/-- Every object at an address at or above `n` only references addresses at
or above `n`: the copied region never points back into the original. -/
def highClosed (n : Nat) (H : List (List Cell)) : Prop :=
  ∀ a, n ≤ a → ∀ c ∈ H.getD a [], ∀ b, c = Cell.ref b → n ≤ b

/-! ## Lemmas and supporting facts -/

/-! ## List index helpers

Small facts about `List.set` and `List.getD` used throughout; they mirror
Python list indexing and item assignment. -/
theorem getD_set_self {α : Type} (l : List α) (i : Nat) (v d : α) (h : i < l.length) :
    (l.set i v).getD i d = v := by
  induction l generalizing i with
  | nil => simp at h
  | cons a as ih =>
    cases i with
    | zero => simp
    | succ n =>
      simp only [List.set_cons_succ, List.getD_cons_succ]
      exact ih n (by simpa using h)

theorem getD_set_ne {α : Type} (l : List α) (i j : Nat) (v d : α) (h : i ≠ j) :
    (l.set i v).getD j d = l.getD j d := by
  induction l generalizing i j with
  | nil => simp
  | cons a as ih =>
    cases i with
    | zero =>
      cases j with
      | zero => exact absurd rfl h
      | succ m => simp
    | succ n =>
      cases j with
      | zero => simp
      | succ m =>
        simp only [List.set_cons_succ, List.getD_cons_succ]
        exact ih n m (fun hnm => h (by rw [hnm]))

theorem getD_mem {α : Type} (l : List α) (i : Nat) (d : α) (h : i < l.length) :
    l.getD i d ∈ l := by
  induction l generalizing i with
  | nil => simp at h
  | cons a as ih =>
    cases i with
    | zero => simp
    | succ n =>
      simp only [List.getD_cons_succ]
      exact List.mem_cons_of_mem a (ih n (by simpa using h))

theorem set_getD_self {α : Type} (l : List α) (i : Nat) (d : α) (h : i < l.length) :
    l.set i (l.getD i d) = l := by
  induction l generalizing i with
  | nil => simp at h
  | cons a as ih =>
    cases i with
    | zero => simp
    | succ n =>
      simp only [List.getD_cons_succ, List.set_cons_succ, List.cons.injEq, true_and]
      exact ih n (by simpa using h)


/-- Induction over `Tiles` with a membership hypothesis for the children of
a node, derived from the primitive nested recursor. -/
theorem Tiles.inductionOn {motive : Tiles → Prop}
    (hleaf : ∀ n, motive (.leaf n))
    (hnode : ∀ ts, (∀ t ∈ ts, motive t) → motive (.node ts)) : ∀ t, motive t := by
  intro t
  refine @Tiles.rec motive (fun ts => ∀ x ∈ ts, motive x) hleaf hnode ?_ ?_ t
  · intro x hx; exact absurd hx (List.not_mem_nil x)
  · intro head tail hh ht x hx
    rcases List.mem_cons.mp hx with h | h
    · exact h ▸ hh
    · exact ht x h


/-- Writing one coordinate does not change the value read at any other
coordinate, for arbitrary (even irregular or out-of-range) trees and paths. -/
theorem getTile_setTile_ne (t : Tiles) (a x : List Nat) (v : Int) (h : a ≠ x) :
    getTile (setTile t a v) x = getTile t x := by
  induction a generalizing t x with
  | nil =>
    cases t with
    | leaf n =>
      cases x with
      | nil => exact absurd rfl h
      | cons j xr => simp [setTile, getTile]
    | node ts => simp [setTile]
  | cons i ar ih =>
    cases t with
    | leaf n => simp [setTile]
    | node ts =>
      cases x with
      | nil => simp [setTile, getTile]
      | cons j xr =>
        by_cases hij : i = j
        · subst hij
          have hx : ar ≠ xr := fun hh => h (by rw [hh])
          by_cases hlen : i < ts.length
          · simp only [setTile, getTile]
            rw [getD_set_self ts i _ _ hlen]
            exact ih _ _ hx
          · simp only [setTile, getTile]
            rw [List.set_eq_of_length_le (Nat.le_of_not_lt hlen)]
        · simp only [setTile, getTile]
          rw [getD_set_ne ts i j _ _ hij]

theorem inb_length {a s : List Nat} (h : inb a s = true) : a.length = s.length := by
  induction a generalizing s with
  | nil => cases s with
    | nil => rfl
    | cons d r => simp [inb] at h
  | cons i ar ih =>
    cases s with
    | nil => simp [inb] at h
    | cons d r =>
      simp only [inb, Bool.and_eq_true] at h
      simp [ih h.2]


/-- Reading the coordinate just written, on a regular tree and an in-bounds
coordinate. -/
theorem getTile_setTile_self (shape : List Nat) (t : Tiles) (a : List Nat) (v : Int)
    (hreg : regular shape t = true) (ha : inb a shape = true) :
    getTile (setTile t a v) a = v := by
  induction a generalizing shape t with
  | nil =>
    cases shape with
    | nil =>
      cases t with
      | leaf n => simp [setTile, getTile]
      | node ts => simp [regular] at hreg
    | cons d rest => simp [inb] at ha
  | cons i ar ih =>
    cases shape with
    | nil => simp [inb] at ha
    | cons d rest =>
      cases t with
      | leaf n => simp [regular] at hreg
      | node ts =>
        simp only [inb, Bool.and_eq_true, decide_eq_true_eq] at ha
        simp only [regular, Bool.and_eq_true, List.all_eq_true, beq_iff_eq] at hreg
        have hlen : i < ts.length := by rw [hreg.1]; exact ha.1
        simp only [setTile, getTile]
        rw [getD_set_self ts i _ _ hlen]
        exact ih rest _ (hreg.2 _ (getD_mem ts i _ hlen)) ha.2


/-- Writing an in-bounds coordinate preserves regularity. -/
theorem setTile_regular (shape : List Nat) (t : Tiles) (a : List Nat) (v : Int)
    (hreg : regular shape t = true) (ha : inb a shape = true) :
    regular shape (setTile t a v) = true := by
  induction a generalizing shape t with
  | nil =>
    cases shape with
    | nil =>
      cases t with
      | leaf n => simp [setTile, regular]
      | node ts => simp [regular] at hreg
    | cons d rest => simp [inb] at ha
  | cons i ar ih =>
    cases shape with
    | nil => simp [inb] at ha
    | cons d rest =>
      cases t with
      | leaf n => simp [regular] at hreg
      | node ts =>
        simp only [inb, Bool.and_eq_true, decide_eq_true_eq] at ha
        simp only [regular, Bool.and_eq_true, List.all_eq_true, beq_iff_eq] at hreg
        have hlen : i < ts.length := by rw [hreg.1]; exact ha.1
        simp only [setTile, regular, Bool.and_eq_true, List.all_eq_true, beq_iff_eq,
          List.length_set]
        refine ⟨hreg.1, ?_⟩
        intro x hx
        rcases List.mem_or_eq_of_mem_set hx with hmem | hset
        · exact hreg.2 x hmem
        · subst hset
          exact ih rest _ (hreg.2 _ (getD_mem ts i _ hlen)) ha.2

theorem mem_allCoords {s : List Nat} {c : List Nat} :
    c ∈ allCoords s ↔ inb c s = true := by
  induction s generalizing c with
  | nil =>
    cases c with
    | nil => simp [allCoords, inb]
    | cons i cr => simp [allCoords, inb]
  | cons d rest ih =>
    cases c with
    | nil => simp [allCoords, inb]
    | cons i cr =>
      simp only [allCoords, List.mem_flatMap, List.mem_map, List.mem_range, inb,
        Bool.and_eq_true, decide_eq_true_eq]
      constructor
      · rintro ⟨j, hj, cc, hcc, heq⟩
        obtain ⟨h1, h2⟩ := List.cons.injEq .. ▸ heq
        exact ⟨h1 ▸ hj, h2 ▸ ih.mp hcc⟩
      · rintro ⟨hi, hcr⟩
        exact ⟨i, hi, cr, ih.mpr hcr, rfl⟩

theorem nodup_allCoords (s : List Nat) : (allCoords s).Nodup := by
  induction s with
  | nil => simp [allCoords]
  | cons d rest ih =>
    simp only [allCoords]
    rw [List.nodup_flatMap]
    constructor
    · intro i _
      exact ih.map (fun a b hab => by injection hab)
    · refine (List.nodup_range d).imp ?_
      intro a b hab x hxa hxb
      rcases List.mem_map.mp hxa with ⟨ca, _, rfl⟩
      rcases List.mem_map.mp hxb with ⟨cb, _, hcb⟩
      exact hab (by injection hcb with h1 h2; exact h1.symm)


/-- One-point update principle for sums over a duplicate-free index list:
if two integrands agree everywhere except possibly at one listed index, the
sums differ by the two values there. -/
theorem sum_map_one_point {α : Type} (l : List α) (f g : α → Int) (c : α)
    (hnd : l.Nodup) (hc : c ∈ l) (hoff : ∀ x ∈ l, x ≠ c → f x = g x) :
    (l.map f).sum = (l.map g).sum - g c + f c := by
  induction l with
  | nil => simp at hc
  | cons a rest ih =>
    rcases List.mem_cons.mp hc with hca | hcr
    · subst hca
      have hrest : ∀ x ∈ rest, f x = g x := by
        intro x hx
        have hxc : x ≠ c := fun hxa => (List.nodup_cons.mp hnd).1 (hxa ▸ hx)
        exact hoff x (List.mem_cons_of_mem c hx) hxc
      simp only [List.map_cons, List.sum_cons]
      rw [List.map_congr_left hrest]
      ring
    · have hfa : f a = g a := hoff a (List.mem_cons_self a rest)
        (fun hac => (List.nodup_cons.mp hnd).1 (hac ▸ hcr))
      simp only [List.map_cons, List.sum_cons]
      rw [ih (List.nodup_cons.mp hnd).2 hcr
        (fun x hx hxc => hoff x (List.mem_cons_of_mem a hx) hxc), hfa]
      ring

theorem totalSum_setTile (shape : List Nat) (t : Tiles) (c : List Nat) (v : Int)
    (hreg : regular shape t = true) (hc : inb c shape = true) :
    totalSum shape (setTile t c v) = totalSum shape t - getTile t c + v := by
  unfold totalSum
  rw [sum_map_one_point (allCoords shape) (fun x => getTile (setTile t c v) x)
    (fun x => getTile t x) c (nodup_allCoords shape) (mem_allCoords.mpr hc)
    (fun x _ hxc => getTile_setTile_ne t c x v (fun hcx => hxc hcx.symm))]
  rw [getTile_setTile_self shape t c v hreg hc]

theorem inb_getD_lt {a s : List Nat} (h : inb a s = true) (k : Nat) (hk : k < a.length) :
    a.getD k 0 < s.getD k 0 := by
  induction a generalizing s k with
  | nil => simp at hk
  | cons i ar ih =>
    cases s with
    | nil => simp [inb] at h
    | cons d rest =>
      simp only [inb, Bool.and_eq_true, decide_eq_true_eq] at h
      cases k with
      | zero => simpa using h.1
      | succ m =>
        simp only [List.getD_cons_succ]
        exact ih h.2 m (by simpa using hk)

theorem phi_setTile (shape : List Nat) (dimension : Nat) (direction : Int)
    (t : Tiles) (c : List Nat) (v : Int)
    (hreg : regular shape t = true) (hc : inb c shape = true) :
    phi shape dimension direction (setTile t c v) =
      phi shape dimension direction t
        - contrib (shape.getD dimension 0) direction (c.getD dimension 0) (getTile t c)
        + contrib (shape.getD dimension 0) direction (c.getD dimension 0) v := by
  unfold phi
  rw [sum_map_one_point (allCoords shape)
    (fun x => contrib (shape.getD dimension 0) direction (x.getD dimension 0)
      (getTile (setTile t c v) x))
    (fun x => contrib (shape.getD dimension 0) direction (x.getD dimension 0) (getTile t x))
    c (nodup_allCoords shape) (mem_allCoords.mpr hc)
    (fun x _ hxc => by
      simp only [getTile_setTile_ne t c x v (fun hcx => hxc hcx.symm)])]
  rw [getTile_setTile_self shape t c v hreg hc]


/-- A nonzero in-bounds cell contributes at least `1` to the potential. -/
theorem contrib_pos (dimLen : Nat) (direction : Int) (i : Nat) (v : Int)
    (hi : i < dimLen) (hv : v ≠ 0) : 1 ≤ contrib dimLen direction i v := by
  unfold contrib distToWall
  rw [if_neg hv]
  by_cases hdir : direction = -1
  · rw [if_pos hdir]
    have hge : (0 : Int) ≤ (i : Int) := Int.natCast_nonneg i
    omega
  · rw [if_neg hdir]
    have hle : (i : Int) + 1 ≤ (dimLen : Int) := by exact_mod_cast hi
    omega

theorem contrib_zero (dimLen : Nat) (direction : Int) (i : Nat) :
    contrib dimLen direction i 0 = 0 := by
  simp [contrib]

theorem coordFrom_inb (shape : List Nat) (dim dimension : Nat) (direction : Int)
    (fraction idx : Nat) (hpos : ∀ d ∈ shape, 0 < d) :
    inb (coordFrom shape dim dimension direction fraction idx) shape = true := by
  induction shape generalizing dim fraction with
  | nil => simp [coordFrom, inb]
  | cons dimLen rest ih =>
    have hd : 0 < dimLen := hpos dimLen (List.mem_cons_self dimLen rest)
    simp only [coordFrom, inb, Bool.and_eq_true, decide_eq_true_eq]
    constructor
    · by_cases hcase : direction = -1 ∨ dimension ≠ dim
      · rw [if_pos hcase]; exact Nat.mod_lt _ hd
      · rw [if_neg hcase]; omega
    · exact ih (dim + 1) _ (fun d hdm => hpos d (List.mem_cons_of_mem dimLen hdm))

theorem coordFrom_length (shape : List Nat) (dim dimension : Nat) (direction : Int)
    (fraction idx : Nat) :
    (coordFrom shape dim dimension direction fraction idx).length = shape.length := by
  induction shape generalizing dim fraction with
  | nil => simp [coordFrom]
  | cons dimLen rest ih => simp [coordFrom, ih]


/-! ## Case analysis of one `move_tile` call

With positive fuel a call either leaves the state untouched (wall reached,
empty source, blocked target, or unequal nonzero target), performs exactly
one merge and stops, or relocates one step and continues sliding. -/
theorem move_tile_view (shape : List Nat) (dim : Nat) (dir : Int) (fuel : Nat)
    (c : List Nat) (st : MSt) :
    move_tile shape dim dir (fuel + 1) c st = (st, 0, []) ∨
    (c.getD dim 0 ≠ wallIndex shape dim dir ∧ getTile st.tiles c ≠ 0 ∧
      c.set dim (stepIndex dir (c.getD dim 0)) ∉ st.blocked ∧
      ((getTile st.tiles (c.set dim (stepIndex dir (c.getD dim 0))) = getTile st.tiles c ∧
        move_tile shape dim dir (fuel + 1) c st =
          (⟨setTile (setTile st.tiles (c.set dim (stepIndex dir (c.getD dim 0)))
              (getTile st.tiles (c.set dim (stepIndex dir (c.getD dim 0))) * 2)) c 0,
            st.blocked ++ [c.set dim (stepIndex dir (c.getD dim 0))]⟩, 1,
            [MoveEvent.merge (c.set dim (stepIndex dir (c.getD dim 0)))])) ∨
       (getTile st.tiles (c.set dim (stepIndex dir (c.getD dim 0))) = 0 ∧
        move_tile shape dim dir (fuel + 1) c st =
          ((move_tile shape dim dir fuel (c.set dim (stepIndex dir (c.getD dim 0)))
              ⟨setTile (setTile st.tiles (c.set dim (stepIndex dir (c.getD dim 0)))
                (getTile st.tiles c)) c 0, st.blocked⟩).1,
           1 + (move_tile shape dim dir fuel (c.set dim (stepIndex dir (c.getD dim 0)))
              ⟨setTile (setTile st.tiles (c.set dim (stepIndex dir (c.getD dim 0)))
                (getTile st.tiles c)) c 0, st.blocked⟩).2.1,
           MoveEvent.relocate (c.set dim (stepIndex dir (c.getD dim 0))) ::
             (move_tile shape dim dir fuel (c.set dim (stepIndex dir (c.getD dim 0)))
              ⟨setTile (setTile st.tiles (c.set dim (stepIndex dir (c.getD dim 0)))
                (getTile st.tiles c)) c 0, st.blocked⟩).2.2)))) := by
  by_cases h1 : c.getD dim 0 = wallIndex shape dim dir
  · left
    simp only [move_tile]
    rw [if_pos h1]
  by_cases h2 : getTile st.tiles c = 0
  · left
    simp only [move_tile]
    rw [if_neg h1, if_pos h2]
  by_cases h3 : c.set dim (stepIndex dir (c.getD dim 0)) ∈ st.blocked
  · left
    simp only [move_tile]
    rw [if_neg h1, if_neg h2, if_pos h3]
  by_cases h4 : getTile st.tiles c = getTile st.tiles (c.set dim (stepIndex dir (c.getD dim 0)))
  · right
    refine ⟨h1, h2, h3, .inl ⟨h4.symm, ?_⟩⟩
    simp only [move_tile]
    rw [if_neg h1, if_neg h2, if_neg h3, if_pos h4]
  by_cases h5 : getTile st.tiles (c.set dim (stepIndex dir (c.getD dim 0))) = 0
  · right
    refine ⟨h1, h2, h3, .inr ⟨h5, ?_⟩⟩
    simp only [move_tile]
    rw [if_neg h1, if_neg h2, if_neg h3, if_neg h4, if_pos h5]
  · left
    simp only [move_tile]
    rw [if_neg h1, if_neg h2, if_neg h3, if_neg h4, if_neg h5]


/-- A call that reports zero steps has not changed the state. -/
theorem move_tile_zero (shape : List Nat) (dim : Nat) (dir : Int) :
    ∀ (fuel : Nat) (c : List Nat) (st : MSt),
    (move_tile shape dim dir fuel c st).2.1 = 0 →
    (move_tile shape dim dir fuel c st).1 = st := by
  intro fuel
  induction fuel with
  | zero => intro c st _; rfl
  | succ n ih =>
    intro c st h
    rcases move_tile_view shape dim dir n c st with hv | ⟨_, _, _, hv | hv⟩
    · rw [hv]
    · rw [hv.2] at h; simp at h
    · rw [hv.2] at h; simp at h


/-! ## Bookkeeping lemmas for events, bounds and distances -/
theorem mergeTargets_nil : mergeTargets [] = [] := rfl

theorem mergeTargets_cons_merge (c : List Nat) (l : List MoveEvent) :
    mergeTargets (MoveEvent.merge c :: l) = c :: mergeTargets l := rfl

theorem mergeTargets_cons_relocate (c : List Nat) (l : List MoveEvent) :
    mergeTargets (MoveEvent.relocate c :: l) = mergeTargets l := rfl

theorem mergeTargets_append (l₁ l₂ : List MoveEvent) :
    mergeTargets (l₁ ++ l₂) = mergeTargets l₁ ++ mergeTargets l₂ :=
  List.filterMap_append ..

theorem mem_mergeTargets_of_mem {c : List Nat} {evs : List MoveEvent}
    (h : MoveEvent.merge c ∈ evs) : c ∈ mergeTargets evs := by
  induction evs with
  | nil => simp at h
  | cons e rest ih =>
    rcases List.mem_cons.mp h with he | he
    · rw [← he, mergeTargets_cons_merge]
      exact List.mem_cons_self c _
    · cases e with
      | merge cc => rw [mergeTargets_cons_merge]; exact List.mem_cons_of_mem cc (ih he)
      | relocate cc => rw [mergeTargets_cons_relocate]; exact ih he

theorem inb_set {a s : List Nat} (h : inb a s = true) (k v : Nat) (hv : v < s.getD k 0) :
    inb (a.set k v) s = true := by
  induction a generalizing s k with
  | nil => cases s with
    | nil => simp [h]
    | cons d r => simp [inb] at h
  | cons i ar ih =>
    cases s with
    | nil => simp [inb] at h
    | cons d r =>
      simp only [inb, Bool.and_eq_true, decide_eq_true_eq] at h
      cases k with
      | zero =>
        simp only [List.set_cons_zero, inb, Bool.and_eq_true, decide_eq_true_eq]
        exact ⟨by simpa using hv, h.2⟩
      | succ m =>
        simp only [List.set_cons_succ, inb, Bool.and_eq_true, decide_eq_true_eq]
        exact ⟨h.1, ih h.2 m (by simpa using hv)⟩

theorem set_ne_self {a : List Nat} {k v : Nat} (hk : k < a.length) (hv : v ≠ a.getD k 0) :
    a.set k v ≠ a := by
  intro h
  apply hv
  have := getD_set_self a k v 0 hk
  rw [h] at this
  exact this.symm


/-- The target cell of a non-wall in-bounds cell is in bounds and lies at a
different index along the moved dimension. -/
theorem target_inb (shape : List Nat) (dim : Nat) (dir : Int) (c : List Nat)
    (hdim : dim < shape.length) (hdir : dir = -1 ∨ dir = 1)
    (hc : inb c shape = true) (hw : c.getD dim 0 ≠ wallIndex shape dim dir) :
    inb (c.set dim (stepIndex dir (c.getD dim 0))) shape = true ∧
    stepIndex dir (c.getD dim 0) ≠ c.getD dim 0 := by
  have hlen : dim < c.length := by rw [inb_length hc]; exact hdim
  have hi : c.getD dim 0 < shape.getD dim 0 := inb_getD_lt hc dim hlen
  rcases hdir with hdir | hdir
  · subst hdir
    have hw0 : c.getD dim 0 ≠ 0 := by simpa [wallIndex] using hw
    have hstep : stepIndex (-1) (c.getD dim 0) = c.getD dim 0 - 1 := by simp [stepIndex]
    constructor
    · exact inb_set hc dim _ (by rw [hstep]; omega)
    · rw [hstep]; omega
  · subst hdir
    have hw1 : c.getD dim 0 ≠ shape.getD dim 0 - 1 := by simpa [wallIndex] using hw
    have hstep : stepIndex 1 (c.getD dim 0) = c.getD dim 0 + 1 := by
      simp [stepIndex]
    constructor
    · exact inb_set hc dim _ (by rw [hstep]; omega)
    · rw [hstep]; omega

theorem distToWall_step (shape : List Nat) (dim : Nat) (dir : Int) (i : Nat)
    (hdir : dir = -1 ∨ dir = 1) (_hi : i < shape.getD dim 0)
    (hw : i ≠ wallIndex shape dim dir) :
    distToWall (shape.getD dim 0) dir (stepIndex dir i) =
      distToWall (shape.getD dim 0) dir i - 1 := by
  rcases hdir with hdir | hdir
  · subst hdir
    have h0 : i ≠ 0 := by simpa [wallIndex] using hw
    have hstep : stepIndex (-1) i = i - 1 := by simp [stepIndex]
    rw [hstep]
    simp only [distToWall, if_pos rfl, ite_true]
    omega
  · subst hdir
    have hstep : stepIndex 1 i = i + 1 := by simp [stepIndex]
    have hne : ¬((1 : Int) = -1) := by omega
    rw [hstep]
    simp only [distToWall, if_neg hne]
    push_cast
    ring


/-! ## Per-call invariants of `move_tile` -/

/-- The blocked list grows by exactly the merge destinations of the call,
every event hits a cell that was unblocked at call entry, and within one
call a merge is always the final event. -/
theorem move_tile_events (shape : List Nat) (dim : Nat) (dir : Int) :
    ∀ (fuel : Nat) (c : List Nat) (st : MSt),
    (move_tile shape dim dir fuel c st).1.blocked
        = st.blocked ++ mergeTargets (move_tile shape dim dir fuel c st).2.2 ∧
    (∀ e ∈ (move_tile shape dim dir fuel c st).2.2, e.target ∉ st.blocked) ∧
    (∀ l₁ cc l₂,
      (move_tile shape dim dir fuel c st).2.2 = l₁ ++ MoveEvent.merge cc :: l₂ → l₂ = []) := by
  intro fuel
  induction fuel with
  | zero =>
    intro c st
    refine ⟨by simp [move_tile, mergeTargets_nil], by simp [move_tile], ?_⟩
    intro l₁ cc l₂ h
    simp only [move_tile] at h
    exact absurd h.symm (List.append_ne_nil_of_right_ne_nil l₁ (List.cons_ne_nil _ _))
  | succ n ih =>
    intro c st
    rcases move_tile_view shape dim dir n c st with hv | ⟨hw, hs, hb, hc | hc⟩
    · refine ⟨by simp [hv, mergeTargets_nil], by simp [hv], ?_⟩
      intro l₁ cc l₂ h
      rw [hv] at h
      exact absurd h.symm (List.append_ne_nil_of_right_ne_nil l₁ (List.cons_ne_nil _ _))
    · rw [hc.2]
      refine ⟨by simp [mergeTargets_cons_merge, mergeTargets_nil], ?_, ?_⟩
      · intro e he
        simp only [List.mem_singleton] at he
        rw [he]
        exact hb
      · intro l₁ cc l₂ h
        cases l₁ with
        | nil => simpa using (List.cons.injEq .. ▸ h).2.symm
        | cons a l₁r =>
          obtain ⟨-, htail⟩ := List.cons.injEq .. ▸ h
          exact absurd htail.symm
            (List.append_ne_nil_of_right_ne_nil l₁r (List.cons_ne_nil _ _))
    · obtain ⟨hreg, hrest⟩ := hc
      rw [hrest]
      obtain ⟨ihb, iht, ihm⟩ := ih (c.set dim (stepIndex dir (c.getD dim 0)))
        ⟨setTile (setTile st.tiles (c.set dim (stepIndex dir (c.getD dim 0)))
          (getTile st.tiles c)) c 0, st.blocked⟩
      refine ⟨?_, ?_, ?_⟩
      · simpa [mergeTargets_cons_relocate] using ihb
      · intro e he
        rcases List.mem_cons.mp he with he | he
        · rw [he]; exact hb
        · exact iht e he
      · intro l₁ cc l₂ h
        cases l₁ with
        | nil =>
          obtain ⟨hhead, -⟩ := List.cons.injEq .. ▸ h
          exact absurd hhead (by simp)
        | cons a l₁r =>
          obtain ⟨-, htail⟩ := List.cons.injEq .. ▸ h
          exact ihm l₁r cc l₂ htail

theorem contrib_of_ne_zero (dimLen : Nat) (direction : Int) (i : Nat) (v : Int) (hv : v ≠ 0) :
    contrib dimLen direction i v = 1 + distToWall dimLen direction i := by
  simp [contrib, hv]


/-- One `move_tile` call preserves regularity and the total value, and
decreases the sliding potential by at least its step count. -/
theorem move_tile_measures (shape : List Nat) (dim : Nat) (dir : Int)
    (hdim : dim < shape.length) (hdir : dir = -1 ∨ dir = 1) :
    ∀ (fuel : Nat) (c : List Nat) (st : MSt),
    regular shape st.tiles = true → inb c shape = true →
    regular shape (move_tile shape dim dir fuel c st).1.tiles = true ∧
    totalSum shape (move_tile shape dim dir fuel c st).1.tiles = totalSum shape st.tiles ∧
    phi shape dim dir (move_tile shape dim dir fuel c st).1.tiles
        + (move_tile shape dim dir fuel c st).2.1 ≤ phi shape dim dir st.tiles := by
  intro fuel
  induction fuel with
  | zero =>
    intro c st hreg hc
    exact ⟨hreg, rfl, by simp [move_tile]⟩
  | succ n ih =>
    intro c st hreg hc
    have hlen : dim < c.length := by rw [inb_length hc]; exact hdim
    have hiL : c.getD dim 0 < shape.getD dim 0 := inb_getD_lt hc dim hlen
    rcases move_tile_view shape dim dir n c st with hv | ⟨hw, hs, hb, hcase | hcase⟩
    · rw [hv]
      exact ⟨hreg, rfl, by simp⟩
    · obtain ⟨htv, hres⟩ := hcase
      obtain ⟨htc, hstep⟩ := target_inb shape dim dir c hdim hdir hc hw
      have hne : c.set dim (stepIndex dir (c.getD dim 0)) ≠ c := set_ne_self hlen hstep
      have hgetd : (c.set dim (stepIndex dir (c.getD dim 0))).getD dim 0
          = stepIndex dir (c.getD dim 0) := getD_set_self c dim _ 0 hlen
      have hres1 : (move_tile shape dim dir (n + 1) c st).1.tiles
          = setTile (setTile st.tiles (c.set dim (stepIndex dir (c.getD dim 0)))
              (getTile st.tiles (c.set dim (stepIndex dir (c.getD dim 0))) * 2)) c 0 := by
        rw [hres]
      have hres2 : (move_tile shape dim dir (n + 1) c st).2.1 = 1 := by rw [hres]
      rw [hres1, hres2]
      have hreg1 : regular shape (setTile st.tiles
          (c.set dim (stepIndex dir (c.getD dim 0)))
          (getTile st.tiles (c.set dim (stepIndex dir (c.getD dim 0))) * 2)) = true :=
        setTile_regular shape st.tiles _ _ hreg htc
      have hget1 : getTile (setTile st.tiles (c.set dim (stepIndex dir (c.getD dim 0)))
          (getTile st.tiles (c.set dim (stepIndex dir (c.getD dim 0))) * 2)) c
          = getTile st.tiles c := getTile_setTile_ne st.tiles _ c _ hne
      refine ⟨setTile_regular shape _ c 0 hreg1 hc, ?_, ?_⟩
      · rw [totalSum_setTile shape _ c 0 hreg1 hc, hget1,
          totalSum_setTile shape st.tiles _ _ hreg htc, htv]
        ring
      · rw [phi_setTile shape dim dir _ c 0 hreg1 hc, hget1,
          phi_setTile shape dim dir st.tiles _ _ hreg htc, hgetd]
        rw [contrib_of_ne_zero _ dir _ _ (by rw [htv]; exact hs),
          contrib_of_ne_zero _ dir _ _ (by rw [htv]; intro h2; exact hs (by omega)),
          contrib_of_ne_zero _ dir _ _ hs, contrib_zero]
        have hd0 : (0 : Int) ≤ distToWall (shape.getD dim 0) dir (c.getD dim 0) := by
          rcases hdir with hd | hd
          · subst hd; simp [distToWall]
          · subst hd
            have hne1 : ¬((1 : Int) = -1) := by omega
            simp only [distToWall, if_neg hne1]
            omega
        omega
    · obtain ⟨htv, hres⟩ := hcase
      obtain ⟨htc, hstep⟩ := target_inb shape dim dir c hdim hdir hc hw
      have hne : c.set dim (stepIndex dir (c.getD dim 0)) ≠ c := set_ne_self hlen hstep
      have hgetd : (c.set dim (stepIndex dir (c.getD dim 0))).getD dim 0
          = stepIndex dir (c.getD dim 0) := getD_set_self c dim _ 0 hlen
      have hres1 : (move_tile shape dim dir (n + 1) c st).1.tiles
          = (move_tile shape dim dir n (c.set dim (stepIndex dir (c.getD dim 0)))
              ⟨setTile (setTile st.tiles (c.set dim (stepIndex dir (c.getD dim 0)))
                (getTile st.tiles c)) c 0, st.blocked⟩).1.tiles := by
        rw [hres]
      have hres2 : (move_tile shape dim dir (n + 1) c st).2.1
          = 1 + (move_tile shape dim dir n (c.set dim (stepIndex dir (c.getD dim 0)))
              ⟨setTile (setTile st.tiles (c.set dim (stepIndex dir (c.getD dim 0)))
                (getTile st.tiles c)) c 0, st.blocked⟩).2.1 := by
        rw [hres]
      rw [hres1, hres2]
      have hreg1 : regular shape (setTile st.tiles
          (c.set dim (stepIndex dir (c.getD dim 0))) (getTile st.tiles c)) = true :=
        setTile_regular shape st.tiles _ _ hreg htc
      have hreg2 : regular shape (setTile (setTile st.tiles
          (c.set dim (stepIndex dir (c.getD dim 0))) (getTile st.tiles c)) c 0) = true :=
        setTile_regular shape _ c 0 hreg1 hc
      have hget1 : getTile (setTile st.tiles (c.set dim (stepIndex dir (c.getD dim 0)))
          (getTile st.tiles c)) c = getTile st.tiles c :=
        getTile_setTile_ne st.tiles _ c _ hne
      obtain ⟨ihreg, ihsum, ihphi⟩ := ih (c.set dim (stepIndex dir (c.getD dim 0)))
        ⟨setTile (setTile st.tiles (c.set dim (stepIndex dir (c.getD dim 0)))
          (getTile st.tiles c)) c 0, st.blocked⟩ hreg2 htc
      have hsum2 : totalSum shape (setTile (setTile st.tiles
          (c.set dim (stepIndex dir (c.getD dim 0))) (getTile st.tiles c)) c 0)
          = totalSum shape st.tiles := by
        rw [totalSum_setTile shape _ c 0 hreg1 hc, hget1,
          totalSum_setTile shape st.tiles _ _ hreg htc, htv]
        ring
      have hphi2 : phi shape dim dir (setTile (setTile st.tiles
          (c.set dim (stepIndex dir (c.getD dim 0))) (getTile st.tiles c)) c 0)
          = phi shape dim dir st.tiles - 1 := by
        rw [phi_setTile shape dim dir _ c 0 hreg1 hc, hget1,
          phi_setTile shape dim dir st.tiles _ _ hreg htc, hgetd, htv]
        rw [contrib_zero, contrib_zero, contrib_of_ne_zero _ dir _ _ hs,
          contrib_of_ne_zero _ dir _ _ hs,
          distToWall_step shape dim dir (c.getD dim 0) hdir hiL hw]
        ring
      refine ⟨ihreg, ?_, ?_⟩
      · rw [ihsum, hsum2]
      · rw [hsum2] at ihsum
        rw [hphi2] at ihphi
        push_cast
        omega


/-- A `move_tile` call only writes cells on the line of its argument: any
cell differing from the argument somewhere outside the moved dimension is
left unchanged. -/
theorem move_tile_frame (shape : List Nat) (dim : Nat) (dir : Int) :
    ∀ (fuel : Nat) (c : List Nat) (st : MSt) (x : List Nat),
    dim < c.length → (∀ j, x ≠ c.set dim j) →
    getTile (move_tile shape dim dir fuel c st).1.tiles x = getTile st.tiles x := by
  intro fuel
  induction fuel with
  | zero => intro c st x _ _; rfl
  | succ n ih =>
    intro c st x hlen hx
    have hxc : c ≠ x := by
      intro h
      exact hx (c.getD dim 0) (by rw [set_getD_self c dim 0 hlen, h])
    rcases move_tile_view shape dim dir n c st with hv | ⟨hw, hs, hb, hcase | hcase⟩
    · rw [hv]
    · have hres1 : (move_tile shape dim dir (n + 1) c st).1.tiles
          = setTile (setTile st.tiles (c.set dim (stepIndex dir (c.getD dim 0)))
              (getTile st.tiles (c.set dim (stepIndex dir (c.getD dim 0))) * 2)) c 0 := by
        rw [hcase.2]
      rw [hres1, getTile_setTile_ne _ c x 0 hxc,
        getTile_setTile_ne _ _ x _ (fun h => hx _ h.symm)]
    · have hres1 : (move_tile shape dim dir (n + 1) c st).1.tiles
          = (move_tile shape dim dir n (c.set dim (stepIndex dir (c.getD dim 0)))
              ⟨setTile (setTile st.tiles (c.set dim (stepIndex dir (c.getD dim 0)))
                (getTile st.tiles c)) c 0, st.blocked⟩).1.tiles := by
        rw [hcase.2]
      rw [hres1]
      have hlen2 : dim < (c.set dim (stepIndex dir (c.getD dim 0))).length := by
        rw [List.length_set]; exact hlen
      have hx2 : ∀ j, x ≠ (c.set dim (stepIndex dir (c.getD dim 0))).set dim j := by
        intro j
        rw [List.set_set]
        exact hx j
      rw [ih (c.set dim (stepIndex dir (c.getD dim 0))) _ x hlen2 hx2]
      exact (getTile_setTile_ne _ c x 0 hxc).trans
        (getTile_setTile_ne _ _ x _ (fun h => hx _ h.symm))

theorem noRetarget_nil : NoRetarget [] := by
  intro l₁ c l₂ h
  exact absurd h.symm (List.append_ne_nil_of_right_ne_nil l₁ (List.cons_ne_nil _ _))


/-- Concatenating traces preserves the discipline when no event of the
second trace targets a merge destination of the first. -/
theorem noRetarget_append {e₁ e₂ : List MoveEvent}
    (h₁ : NoRetarget e₁) (h₂ : NoRetarget e₂)
    (hcross : ∀ c ∈ mergeTargets e₁, ∀ e ∈ e₂, e.target ≠ c) :
    NoRetarget (e₁ ++ e₂) := by
  intro l₁ c l₂ heq e he
  rcases List.append_eq_append_iff.mp heq with ⟨m, _, hm2⟩ | ⟨m, hm1, hm2⟩
  · exact h₂ m c l₂ hm2 e he
  · cases m with
    | nil =>
      rw [List.nil_append] at hm2
      exact h₂ [] c l₂ (by simpa using hm2.symm) e he
    | cons y mr =>
      obtain ⟨hy, hl₂⟩ := List.cons.injEq .. ▸ hm2
      rcases List.mem_append.mp (hl₂ ▸ he) with hem | hee
      · exact h₁ l₁ c mr (by rw [hm1, hy]) e hem
      · refine hcross c ?_ e hee
        apply mem_mergeTargets_of_mem
        rw [hm1, hy]
        exact List.mem_append_right l₁ (List.mem_cons_self _ _)


/-- A single call satisfies the discipline outright: its only possible merge
is its final event. -/
theorem move_tile_noRetarget (shape : List Nat) (dim : Nat) (dir : Int)
    (fuel : Nat) (c : List Nat) (st : MSt) :
    NoRetarget (move_tile shape dim dir fuel c st).2.2 := by
  intro l₁ cc l₂ h e he
  rw [(move_tile_events shape dim dir fuel c st).2.2 l₁ cc l₂ h] at he
  simp at he


/-! ## Folding over the sequential coordinates -/
theorem moveFold_events (shape : List Nat) (dim : Nat) (dir : Int) :
    ∀ (coords : List (List Nat)) (st : MSt),
    (moveFold shape dim dir coords st).1.blocked
        = st.blocked ++ mergeTargets (moveFold shape dim dir coords st).2.2 ∧
    (∀ e ∈ (moveFold shape dim dir coords st).2.2, e.target ∉ st.blocked) ∧
    NoRetarget (moveFold shape dim dir coords st).2.2 := by
  intro coords
  induction coords with
  | nil =>
    intro st
    exact ⟨by simp [moveFold, mergeTargets_nil], by simp [moveFold], noRetarget_nil⟩
  | cons c rest ih =>
    intro st
    obtain ⟨hb1, ht1, hm1⟩ :=
      move_tile_events shape dim dir (shape.getD dim 0) c st
    obtain ⟨hb2, ht2, hm2⟩ :=
      ih (move_tile shape dim dir (shape.getD dim 0) c st).1
    have hres1 : (moveFold shape dim dir (c :: rest) st).1
        = (moveFold shape dim dir rest (move_tile shape dim dir (shape.getD dim 0) c st).1).1 :=
      rfl
    have hres2 : (moveFold shape dim dir (c :: rest) st).2.2
        = (move_tile shape dim dir (shape.getD dim 0) c st).2.2
          ++ (moveFold shape dim dir rest
              (move_tile shape dim dir (shape.getD dim 0) c st).1).2.2 := rfl
    have hm1NR : NoRetarget (move_tile shape dim dir (shape.getD dim 0) c st).2.2 :=
      move_tile_noRetarget shape dim dir (shape.getD dim 0) c st
    refine ⟨?_, ?_, ?_⟩
    · rw [hres1, hres2, hb2, hb1, mergeTargets_append, List.append_assoc]
    · intro e he
      rcases List.mem_append.mp (hres2 ▸ he) with he1 | he2
      · exact ht1 e he1
      · intro hmem
        exact ht2 e he2 (hb1 ▸ List.mem_append_left _ hmem)
    · rw [hres2]
      refine noRetarget_append hm1NR hm2 ?_
      intro cc hcc e he
      intro htgt
      refine ht2 e he ?_
      rw [hb1, htgt]
      exact List.mem_append_right _ hcc

theorem moveFold_zero (shape : List Nat) (dim : Nat) (dir : Int) :
    ∀ (coords : List (List Nat)) (st : MSt),
    (moveFold shape dim dir coords st).2.1 = 0 →
    (moveFold shape dim dir coords st).1 = st := by
  intro coords
  induction coords with
  | nil => intro st _; rfl
  | cons c rest ih =>
    intro st h
    have hsplit : (moveFold shape dim dir (c :: rest) st).2.1
        = (move_tile shape dim dir (shape.getD dim 0) c st).2.1
          + (moveFold shape dim dir rest
              (move_tile shape dim dir (shape.getD dim 0) c st).1).2.1 := rfl
    rw [hsplit] at h
    have h1 : (move_tile shape dim dir (shape.getD dim 0) c st).2.1 = 0 := by omega
    have h2 : (moveFold shape dim dir rest
        (move_tile shape dim dir (shape.getD dim 0) c st).1).2.1 = 0 := by omega
    have hst : (move_tile shape dim dir (shape.getD dim 0) c st).1 = st :=
      move_tile_zero shape dim dir (shape.getD dim 0) c st h1
    have : (moveFold shape dim dir (c :: rest) st).1
        = (moveFold shape dim dir rest
            (move_tile shape dim dir (shape.getD dim 0) c st).1).1 := rfl
    rw [this, ih _ h2, hst]

theorem moveFold_measures (shape : List Nat) (dim : Nat) (dir : Int)
    (hdim : dim < shape.length) (hdir : dir = -1 ∨ dir = 1) :
    ∀ (coords : List (List Nat)) (st : MSt),
    (∀ c ∈ coords, inb c shape = true) → regular shape st.tiles = true →
    regular shape (moveFold shape dim dir coords st).1.tiles = true ∧
    totalSum shape (moveFold shape dim dir coords st).1.tiles = totalSum shape st.tiles ∧
    phi shape dim dir (moveFold shape dim dir coords st).1.tiles
        + (moveFold shape dim dir coords st).2.1 ≤ phi shape dim dir st.tiles := by
  intro coords
  induction coords with
  | nil =>
    intro st _ hreg
    exact ⟨hreg, rfl, by simp [moveFold]⟩
  | cons c rest ih =>
    intro st hcs hreg
    obtain ⟨hreg1, hsum1, hphi1⟩ := move_tile_measures shape dim dir hdim hdir
      (shape.getD dim 0) c st hreg (hcs c (List.mem_cons_self c rest))
    obtain ⟨hreg2, hsum2, hphi2⟩ := ih (move_tile shape dim dir (shape.getD dim 0) c st).1
      (fun cc hcc => hcs cc (List.mem_cons_of_mem c hcc)) hreg1
    have hres1 : (moveFold shape dim dir (c :: rest) st).1
        = (moveFold shape dim dir rest
            (move_tile shape dim dir (shape.getD dim 0) c st).1).1 := rfl
    have hres2 : (moveFold shape dim dir (c :: rest) st).2.1
        = (move_tile shape dim dir (shape.getD dim 0) c st).2.1
          + (moveFold shape dim dir rest
              (move_tile shape dim dir (shape.getD dim 0) c st).1).2.1 := rfl
    rw [hres1, hres2]
    refine ⟨hreg2, by rw [hsum2, hsum1], ?_⟩
    push_cast
    omega


/-! ## From the fold to `Board.move` -/

theorem seqCoords_inb (shape : List Nat) (dim : Nat) (dir : Int)
    (hpos : ∀ d ∈ shape, 0 < d) :
    ∀ c ∈ generate_sequential_coordinates shape dim dir, inb c shape = true := by
  intro c hc
  rcases List.mem_map.mp hc with ⟨idx, _, rfl⟩
  exact coordFrom_inb shape 0 dim dir shape.prod idx hpos

theorem moveFull_valid (b : Board) (dimension direction : Int)
    (h1 : 0 ≤ dimension ∧ dimension < (b.shape.length : Int))
    (h2 : direction = -1 ∨ direction = 1) :
    b.moveFull dimension direction =
      (⟨b.shape, (moveFold b.shape dimension.toNat direction
          (generate_sequential_coordinates b.shape dimension.toNat direction)
          ⟨b.tiles, []⟩).1.tiles⟩,
       decide (0 < (moveFold b.shape dimension.toNat direction
          (generate_sequential_coordinates b.shape dimension.toNat direction)
          ⟨b.tiles, []⟩).2.1),
       (moveFold b.shape dimension.toNat direction
          (generate_sequential_coordinates b.shape dimension.toNat direction)
          ⟨b.tiles, []⟩).2.2) := by
  unfold Board.moveFull
  rw [if_pos h1, if_pos h2]

theorem moveFull_invalid (b : Board) (dimension direction : Int)
    (h : ¬(0 ≤ dimension ∧ dimension < (b.shape.length : Int))
        ∨ ¬(direction = -1 ∨ direction = 1)) :
    b.moveFull dimension direction = (b, false, []) := by
  unfold Board.moveFull
  rcases h with h | h
  · rw [if_neg h]
  · by_cases h1 : 0 ≤ dimension ∧ dimension < (b.shape.length : Int)
    · rw [if_pos h1, if_neg h]
    · rw [if_neg h1]

theorem toNat_lt_length {b : Board} {dimension : Int}
    (h0 : 0 ≤ dimension) (hlt : dimension < (b.shape.length : Int)) :
    dimension.toNat < b.shape.length := by
  omega

/-- C1.  Merge-once law of `Board.move`: within a single call, once a cell
has been the destination of a merge it is never again the destination of any
merge or relocation; consequently chain merges are impossible, and the
rank-1 line `[4,4,4,4]` moved with direction `-1` yields `[8,8,0,0]`, never
`[16,0,0,0]`. -/
theorem c1_merge_once :
    (∀ (b : Board) (dimension direction : Int) (l₁ l₂ : List MoveEvent) (c : List Nat),
      (b.moveFull dimension direction).2.2 = l₁ ++ MoveEvent.merge c :: l₂ →
      ∀ e ∈ l₂, e.target ≠ c) ∧
    Board.move ⟨[4], .node [.leaf 4, .leaf 4, .leaf 4, .leaf 4]⟩ 0 (-1)
      = (⟨[4], .node [.leaf 8, .leaf 8, .leaf 0, .leaf 0]⟩, true) := by
  constructor
  · intro b dimension direction l₁ l₂ c heq e he
    by_cases h1 : 0 ≤ dimension ∧ dimension < (b.shape.length : Int)
    · by_cases h2 : direction = -1 ∨ direction = 1
      · rw [moveFull_valid b dimension direction h1 h2] at heq
        exact (moveFold_events b.shape dimension.toNat direction
          (generate_sequential_coordinates b.shape dimension.toNat direction)
          ⟨b.tiles, []⟩).2.2 l₁ c l₂ heq e he
      · rw [moveFull_invalid b dimension direction (.inr h2)] at heq
        exact absurd heq.symm
          (List.append_ne_nil_of_right_ne_nil l₁ (List.cons_ne_nil _ _))
    · rw [moveFull_invalid b dimension direction (.inl h1)] at heq
      exact absurd heq.symm
        (List.append_ne_nil_of_right_ne_nil l₁ (List.cons_ne_nil _ _))
  · rfl

/-- Witness for C1 at the concrete trace of the `[4,4,4,4]` move, whose
events are `[merge [0], relocate [1], relocate [2], merge [1]]`: the event
`relocate [1]` that follows `merge [0]` does not land on `[0]`. -/
theorem c1_merge_once_witness :
    MoveEvent.target (MoveEvent.relocate [1]) ≠ [0] := by
  refine c1_merge_once.1 ⟨[4], .node [.leaf 4, .leaf 4, .leaf 4, .leaf 4]⟩ 0 (-1)
    [] [MoveEvent.relocate [1], MoveEvent.relocate [2], MoveEvent.merge [1]] [0] (by rfl)
    (MoveEvent.relocate [1]) ?_
  exact List.mem_cons_self _ _

/-- C2.  For every well-formed board and every valid dimension and
direction, `Board.move` returns `true` exactly when the call changed at
least one tile; in particular a `false` return leaves the tiles unchanged. -/
theorem c2_move_flag_iff_changed :
    ∀ (b : Board) (dimension direction : Int), b.WF →
      0 ≤ dimension → dimension < (b.shape.length : Int) →
      (direction = -1 ∨ direction = 1) →
      ((b.move dimension direction).2 = true ↔
        (b.move dimension direction).1.tiles ≠ b.tiles) := by
  intro b dimension direction hwf h0 hlt hdir
  have hval := moveFull_valid b dimension direction ⟨h0, hlt⟩ hdir
  have hmove1 : (b.move dimension direction).1.tiles
      = (moveFold b.shape dimension.toNat direction
          (generate_sequential_coordinates b.shape dimension.toNat direction)
          ⟨b.tiles, []⟩).1.tiles := by
    unfold Board.move
    rw [hval]
  have hmove2 : (b.move dimension direction).2
      = decide (0 < (moveFold b.shape dimension.toNat direction
          (generate_sequential_coordinates b.shape dimension.toNat direction)
          ⟨b.tiles, []⟩).2.1) := by
    unfold Board.move
    rw [hval]
  rw [hmove1, hmove2]
  constructor
  · intro hflag heq
    have hsteps : 0 < (moveFold b.shape dimension.toNat direction
        (generate_sequential_coordinates b.shape dimension.toNat direction)
        ⟨b.tiles, []⟩).2.1 := of_decide_eq_true hflag
    obtain ⟨-, -, hphi⟩ := moveFold_measures b.shape dimension.toNat direction
      (toNat_lt_length h0 hlt) hdir
      (generate_sequential_coordinates b.shape dimension.toNat direction)
      ⟨b.tiles, []⟩
      (seqCoords_inb b.shape dimension.toNat direction hwf.2) hwf.1
    have hproj : (MSt.mk b.tiles []).tiles = b.tiles := rfl
    rw [heq, hproj] at hphi
    omega
  · intro hne
    by_contra hflag
    have hzero : (moveFold b.shape dimension.toNat direction
        (generate_sequential_coordinates b.shape dimension.toNat direction)
        ⟨b.tiles, []⟩).2.1 = 0 := by
      by_contra hz
      exact hflag (decide_eq_true (by omega))
    have := moveFold_zero b.shape dimension.toNat direction
      (generate_sequential_coordinates b.shape dimension.toNat direction)
      ⟨b.tiles, []⟩ hzero
    exact hne (by rw [this])

/-- Witness for C2 on the concrete rank-1 board `[2,0]` moved away from the
origin, where the move relocates the tile and returns `true`. -/
theorem c2_move_flag_iff_changed_witness :
    ((Board.move ⟨[2], .node [.leaf 2, .leaf 0]⟩ 0 1).2 = true ↔
      (Board.move ⟨[2], .node [.leaf 2, .leaf 0]⟩ 0 1).1.tiles
        ≠ Tiles.node [.leaf 2, .leaf 0]) := by
  refine c2_move_flag_iff_changed ⟨[2], .node [.leaf 2, .leaf 0]⟩ 0 1
    ⟨rfl, ?_⟩ (by omega) (by simp) (.inr rfl)
  intro d hd
  simp at hd
  omega

/-! ## Properties of `Board.place` -/

theorem locationOk_inb : ∀ {location : List Int} {shape : List Nat},
    locationOk location shape = true → inb (location.map Int.toNat) shape = true := by
  intro location
  induction location with
  | nil =>
    intro shape h
    cases shape with
    | nil => simp [inb]
    | cons s sr => simp [locationOk] at h
  | cons l lr ih =>
    intro shape h
    cases shape with
    | nil => simp [locationOk] at h
    | cons s sr =>
      simp only [locationOk] at h
      by_cases hc : 0 ≤ l ∧ l < (s : Int)
      · rw [if_pos hc] at h
        simp only [List.map_cons, inb, Bool.and_eq_true, decide_eq_true_eq]
        exact ⟨by omega, ih h⟩
      · rw [if_neg hc] at h
        exact absurd h (by simp)

theorem locationOk_false_of_bad : ∀ {location : List Int} {shape : List Nat},
    location.length = shape.length →
    (∃ i, i < location.length ∧
      ¬(0 ≤ location.getD i 0 ∧ location.getD i 0 < (shape.getD i 0 : Int))) →
    locationOk location shape = false := by
  intro location
  induction location with
  | nil =>
    intro shape _ hbad
    obtain ⟨i, hi, -⟩ := hbad
    simp at hi
  | cons l lr ih =>
    intro shape hlen hbad
    cases shape with
    | nil => simp at hlen
    | cons s sr =>
      obtain ⟨i, hi, hb⟩ := hbad
      simp only [locationOk]
      by_cases hc : 0 ≤ l ∧ l < (s : Int)
      · rw [if_pos hc]
        cases i with
        | zero => exact absurd hc (by simpa using hb)
        | succ m =>
          refine ih (by simpa using hlen) ⟨m, by simpa using hi, ?_⟩
          simpa using hb
      · rw [if_neg hc]

theorem place_fail (b : Board) (location : List Int) (roll : Nat)
    (h : location.length ≠ b.shape.length ∨ locationOk location b.shape = false ∨
        getTile b.tiles (location.map Int.toNat) ≠ 0) :
    b.place location roll = (b, false) := by
  unfold Board.place
  rcases h with h | h | h
  · rw [if_pos h]
  · by_cases h1 : location.length ≠ b.shape.length
    · rw [if_pos h1]
    · rw [if_neg h1, if_pos h]
  · by_cases h1 : location.length ≠ b.shape.length
    · rw [if_pos h1]
    · rw [if_neg h1]
      by_cases h2 : locationOk location b.shape = false
      · rw [if_pos h2]
      · rw [if_neg h2, if_neg h]

theorem place_succeed (b : Board) (location : List Int) (roll : Nat)
    (h1 : location.length = b.shape.length) (h2 : locationOk location b.shape = true)
    (h3 : getTile b.tiles (location.map Int.toNat) = 0) :
    b.place location roll = (⟨b.shape, setTile b.tiles (location.map Int.toNat)
      (if roll < 9 then 2 else 4)⟩, true) := by
  unfold Board.place
  rw [if_neg (fun hne => hne h1), if_neg (by rw [h2]; simp), if_pos h3]

/-- C3.  The total tile value is unchanged by every `Board.move` call, and
every successful `Board.place` raises it by exactly 2 or exactly 4 while a
failing one leaves the board untouched. -/
theorem c3_sum_invariant :
    (∀ (b : Board) (dimension direction : Int), b.WF →
      totalSum b.shape (b.move dimension direction).1.tiles = totalSum b.shape b.tiles) ∧
    (∀ (b : Board) (location : List Int) (roll : Nat), b.WF →
      ((b.place location roll).2 = true →
        totalSum b.shape (b.place location roll).1.tiles = totalSum b.shape b.tiles + 2 ∨
        totalSum b.shape (b.place location roll).1.tiles = totalSum b.shape b.tiles + 4) ∧
      ((b.place location roll).2 = false → (b.place location roll).1 = b)) := by
  constructor
  · intro b dimension direction hwf
    by_cases h1 : 0 ≤ dimension ∧ dimension < (b.shape.length : Int)
    · by_cases h2 : direction = -1 ∨ direction = 1
      · have hval := moveFull_valid b dimension direction h1 h2
        have hmove1 : (b.move dimension direction).1.tiles
            = (moveFold b.shape dimension.toNat direction
                (generate_sequential_coordinates b.shape dimension.toNat direction)
                ⟨b.tiles, []⟩).1.tiles := by
          unfold Board.move
          rw [hval]
        obtain ⟨-, hsum, -⟩ := moveFold_measures b.shape dimension.toNat direction
          (toNat_lt_length h1.1 h1.2) h2
          (generate_sequential_coordinates b.shape dimension.toNat direction)
          ⟨b.tiles, []⟩
          (seqCoords_inb b.shape dimension.toNat direction hwf.2) hwf.1
        rw [hmove1, hsum]
      · have hval := moveFull_invalid b dimension direction (.inr h2)
        unfold Board.move
        rw [hval]
    · have hval := moveFull_invalid b dimension direction (.inl h1)
      unfold Board.move
      rw [hval]
  · intro b location roll hwf
    by_cases h1 : location.length = b.shape.length
    · by_cases h2 : locationOk location b.shape = true
      · by_cases h3 : getTile b.tiles (location.map Int.toNat) = 0
        · have hp := place_succeed b location roll h1 h2 h3
          constructor
          · intro _
            have hinb := locationOk_inb h2
            have hsum := totalSum_setTile b.shape b.tiles (location.map Int.toNat)
              (if roll < 9 then 2 else 4) hwf.1 hinb
            rw [hp]
            rw [h3] at hsum
            by_cases h9 : roll < 9
            · left
              rw [if_pos h9] at hsum ⊢
              rw [hsum]
              ring
            · right
              rw [if_neg h9] at hsum ⊢
              rw [hsum]
              ring
          · intro hfl
            rw [hp] at hfl
            simp at hfl
        · have hp := place_fail b location roll (.inr (.inr h3))
          rw [hp]
          exact ⟨fun h => absurd h (by simp), fun _ => rfl⟩
      · have h2f : locationOk location b.shape = false := by
          simp only [Bool.not_eq_true] at h2
          exact h2
        have hp := place_fail b location roll (.inr (.inl h2f))
        rw [hp]
        exact ⟨fun h => absurd h (by simp), fun _ => rfl⟩
    · have hp := place_fail b location roll (.inl h1)
      rw [hp]
      exact ⟨fun h => absurd h (by simp), fun _ => rfl⟩

/-- Witness for C3: moving the rank-1 board `[2,0]` away from the origin
keeps the total at 2, and placing into the empty cell of that board raises
the total by exactly 2 or 4. -/
theorem c3_sum_invariant_witness :
    totalSum [2] ((Board.move ⟨[2], .node [.leaf 2, .leaf 0]⟩ 0 1).1.tiles)
      = totalSum [2] (Tiles.node [.leaf 2, .leaf 0]) ∧
    (totalSum [2] ((Board.place ⟨[2], .node [.leaf 2, .leaf 0]⟩ [1] 0).1.tiles)
        = totalSum [2] (Tiles.node [.leaf 2, .leaf 0]) + 2 ∨
      totalSum [2] ((Board.place ⟨[2], .node [.leaf 2, .leaf 0]⟩ [1] 0).1.tiles)
        = totalSum [2] (Tiles.node [.leaf 2, .leaf 0]) + 4) := by
  have hwf : Board.WF ⟨[2], .node [.leaf 2, .leaf 0]⟩ := by
    refine ⟨rfl, ?_⟩
    intro d hd
    simp at hd
    omega
  exact ⟨c3_sum_invariant.1 ⟨[2], .node [.leaf 2, .leaf 0]⟩ 0 1 hwf,
    (c3_sum_invariant.2 ⟨[2], .node [.leaf 2, .leaf 0]⟩ [1] 0 hwf).1 (by rfl)⟩

/-- C4.  A `Board.place` call with a coordinate of the wrong length, an out
of bounds component, or an occupied target cell returns `false` and leaves
the board unchanged; on a fresh 2 by 2 board the first `place([0,0])`
succeeds with a 2 or a 4 at `[0,0]` and a second `place([0,0])` fails
without mutating anything. -/
theorem c4_place_atomicity :
    (∀ (b : Board) (location : List Int) (roll : Nat),
      (location.length ≠ b.shape.length ∨
        (∃ i, i < location.length ∧
          ¬(0 ≤ location.getD i 0 ∧ location.getD i 0 < (b.shape.getD i 0 : Int))) ∨
        getTile b.tiles (location.map Int.toNat) ≠ 0) →
      b.place location roll = (b, false)) ∧
    Board.ofShape [2, 2] = .ok board22 ∧
    (∀ roll : Nat, (board22.place [0, 0] roll).2 = true ∧
      (getTile (board22.place [0, 0] roll).1.tiles [0, 0] = 2 ∨
       getTile (board22.place [0, 0] roll).1.tiles [0, 0] = 4)) ∧
    (∀ roll roll₂ : Nat,
      (board22.place [0, 0] roll).1.place [0, 0] roll₂
        = ((board22.place [0, 0] roll).1, false)) := by
  have hplace : ∀ roll : Nat, board22.place [0, 0] roll
      = (⟨[2, 2], setTile board22.tiles [0, 0] (if roll < 9 then 2 else 4)⟩, true) :=
    fun roll => place_succeed board22 [0, 0] roll rfl rfl rfl
  refine ⟨?_, rfl, ?_, ?_⟩
  · intro b location roll h
    rcases h with h | h | h
    · exact place_fail b location roll (.inl h)
    · by_cases h1 : location.length = b.shape.length
      · exact place_fail b location roll (.inr (.inl (locationOk_false_of_bad h1 h)))
      · exact place_fail b location roll (.inl h1)
    · exact place_fail b location roll (.inr (.inr h))
  · intro roll
    rw [hplace roll]
    by_cases h9 : roll < 9
    · rw [if_pos h9]
      exact ⟨rfl, .inl rfl⟩
    · rw [if_neg h9]
      exact ⟨rfl, .inr rfl⟩
  · intro roll roll₂
    rw [hplace roll]
    by_cases h9 : roll < 9
    · rw [if_pos h9]
      exact place_fail _ [0, 0] roll₂ (.inr (.inr (by decide)))
    · rw [if_neg h9]
      exact place_fail _ [0, 0] roll₂ (.inr (.inr (by decide)))

/-- Witness for C4: placing at `[5,5]` on the fresh 2 by 2 board fails and
leaves it unchanged, and the two concrete-scenario conjuncts instantiated at
draws 0 and 9. -/
theorem c4_place_atomicity_witness :
    board22.place [5, 5] 0 = (board22, false) ∧
    (board22.place [0, 0] 0).2 = true ∧
    (board22.place [0, 0] 9).1.place [0, 0] 3 = ((board22.place [0, 0] 9).1, false) := by
  refine ⟨?_, (c4_place_atomicity.2.2.1 0).1, c4_place_atomicity.2.2.2 9 3⟩
  exact c4_place_atomicity.1 board22 [5, 5] 0 (.inr (.inl ⟨0, by decide, by decide⟩))

/-! ## The scoring refinement -/

theorem get_score_acc : ∀ (t : Tiles) (acc : Int), get_score t acc = acc + scoreSpec t := by
  have hlist : ∀ (l : List Tiles), (∀ t ∈ l, ∀ acc : Int, get_score t acc = acc + scoreSpec t) →
      ∀ acc : Int, get_scoreList l acc = acc + scoreSpecList l := by
    intro l
    induction l with
    | nil => intro _ acc; simp [get_scoreList, scoreSpecList]
    | cons t rest ihl =>
      intro hmem acc
      simp only [get_scoreList, scoreSpecList]
      rw [hmem t (List.mem_cons_self t rest) acc,
        ihl (fun x hx => hmem x (List.mem_cons_of_mem t hx)) (acc + scoreSpec t)]
      ring
  intro t
  induction t using Tiles.inductionOn with
  | hleaf n => intro acc; simp [get_score, scoreSpec]
  | hnode ts ih =>
    intro acc
    simp only [get_score, scoreSpec]
    exact hlist ts ih acc

/-- C8.  The attacker validation wrapper accepts a `keepgoing` decision
whose location list holds a non-integer element: the per-element integer
check in the source is unreachable dead code behind the list-type raise, so
only list-ness of `location` is enforced. -/
theorem c8_location_elements_unchecked :
    get_place_instruction (.pyDict [("keepgoing", .pyBool true),
        ("location", .pyList [.pyStr "oops"])])
      = .ok (.pyDict [("keepgoing", .pyBool true),
        ("location", .pyList [.pyStr "oops"])]) := rfl

/-- C9.  When the attack provider always answers `continue = false`, the
round loop ends on the very first turn: the attacker is queried exactly
once, the defender never, the board is not mutated, and the score of the
initial board is returned. -/
theorem c9_attacker_giveup_one_turn :
    ∀ (defender : Tiles → MoveDecision) (rolls : Nat → Nat) (b : Board) (fuel : Nat),
      0 < fuel →
      roundLoop (fun _ => ⟨false, []⟩) defender rolls fuel .attack b 0 0
        = some (get_score b.tiles 0, b, 1, 0) := by
  intro defender rolls b fuel hf
  cases fuel with
  | zero => omega
  | succ n => rfl

/-- Witness for C9 with one unit of fuel on the fresh 2 by 2 board. -/
theorem c9_attacker_giveup_one_turn_witness :
    roundLoop (fun _ => ⟨false, []⟩) (fun _ => ⟨false, 0, 0⟩) (fun _ => 0) 1
        .attack board22 0 0
      = some (get_score board22.tiles 0, board22, 1, 0) :=
  c9_attacker_giveup_one_turn (fun _ => ⟨false, 0, 0⟩) (fun _ => 0) board22 1 (by omega)

/-! ## Lines untouched by a move -/

theorem lineVals_getD (b : Board) (dim : Nat) (base : List Nat) (i : Nat)
    (hi : i < b.shape.getD dim 0) :
    (lineVals b dim base).getD i 0 = getTile b.tiles (base.set dim i) := by
  unfold lineVals
  rw [List.getD_eq_getElem?_getD, List.getElem?_map, List.getElem?_range hi]
  rfl

theorem lineVals_length (b : Board) (dim : Nat) (base : List Nat) :
    (lineVals b dim base).length = b.shape.getD dim 0 := by
  simp [lineVals]

theorem hzn_false {vals : List Int} (h : hasZeroThenNonzero vals = false) :
    ∀ i j, i < j → j < vals.length → vals.getD i 0 = 0 → vals.getD j 0 = 0 := by
  induction vals with
  | nil => intro i j _ hj; simp at hj
  | cons a rest ih =>
    intro i j hij hj hzero
    simp only [hasZeroThenNonzero, Bool.or_eq_false_iff, Bool.and_eq_false_iff] at h
    cases i with
    | zero =>
      simp only [List.getD_cons_zero] at hzero
      cases j with
      | zero => simp at hij
      | succ m =>
        simp only [List.getD_cons_succ]
        have hnone : ¬ rest.any (fun x => x != 0) = true := by
          rcases h.1 with hfa | hfa
          · exact absurd hzero (by simpa using hfa)
          · rw [hfa]; simp
        simp only [List.any_eq_true, not_exists, bne_iff_ne, ne_eq, not_and, not_not] at hnone
        have hm : m < rest.length := by simpa using hj
        exact hnone _ (getD_mem rest m 0 hm)
    | succ n =>
      cases j with
      | zero => simp at hij
      | succ m =>
        simp only [List.getD_cons_succ] at hzero ⊢
        exact ih h.2 n m (by omega) (by simpa using hj) hzero

theorem hnz_false {vals : List Int} (h : hasNonzeroThenZero vals = false) :
    ∀ i j, i < j → j < vals.length → vals.getD j 0 = 0 → vals.getD i 0 = 0 := by
  induction vals with
  | nil => intro i j _ hj; simp at hj
  | cons a rest ih =>
    intro i j hij hj hzero
    simp only [hasNonzeroThenZero, Bool.or_eq_false_iff, Bool.and_eq_false_iff] at h
    cases i with
    | zero =>
      cases j with
      | zero => simp at hij
      | succ m =>
        simp only [List.getD_cons_succ] at hzero
        simp only [List.getD_cons_zero]
        by_contra ha
        have hm : m < rest.length := by simpa using hj
        have hany : rest.any (fun x => x == 0) = true := by
          simp only [List.any_eq_true, beq_iff_eq]
          exact ⟨_, getD_mem rest m 0 hm, hzero⟩
        rcases h.1 with hfa | hfa
        · exact ha (by simpa using hfa)
        · exact absurd hany (by rw [hfa]; simp)
    | succ n =>
      cases j with
      | zero => simp at hij
      | succ m =>
        simp only [List.getD_cons_succ] at hzero ⊢
        exact ih h.2 n m (by omega) (by simpa using hj) hzero

theorem noAdjEqual_getD {vals : List Int} (h : noAdjEqual vals = true) :
    ∀ i, i + 1 < vals.length → vals.getD i 0 ≠ 0 →
      vals.getD i 0 ≠ vals.getD (i + 1) 0 := by
  induction vals with
  | nil => intro i hi; simp at hi
  | cons a rest ih =>
    intro i hi hnz
    cases rest with
    | nil => simp at hi
    | cons b rr =>
      simp only [noAdjEqual, Bool.and_eq_true] at h
      cases i with
      | zero =>
        simp only [List.getD_cons_zero, List.getD_cons_succ] at hnz ⊢
        rcases Bool.or_eq_true_iff.mp h.1 with hab | ha0
        · simpa using hab
        · exact absurd (by simpa using ha0) hnz
      | succ n =>
        simp only [List.getD_cons_succ] at hnz ⊢
        exact ih h.2 n (by simpa using hi) hnz

theorem off_line_ne {c base : List Nat} {dim : Nat} (hlen : dim < c.length)
    (hnl : c ≠ base.set dim (c.getD dim 0)) :
    ∀ i j, base.set dim i ≠ c.set dim j := by
  intro i j heq
  apply hnl
  have h1 : (base.set dim i).set dim (c.getD dim 0)
      = (c.set dim j).set dim (c.getD dim 0) := by rw [heq]
  rw [List.set_set, List.set_set, set_getD_self c dim 0 hlen] at h1
  exact h1.symm

/-- On a line whose values leave no empty cell reachable in the movement
direction and contain no adjacent equal nonzero pair, a `move_tile` call
leaves every value of that line unchanged. -/
theorem move_tile_line (shape : List Nat) (dim : Nat) (dir : Int)
    (hdim : dim < shape.length) (hdir : dir = -1 ∨ dir = 1)
    (base : List Nat) (vals : List Int) (hvlen : vals.length = shape.getD dim 0)
    (hreach : reachableEmpty dir vals = false) (hadj : noAdjEqual vals = true) :
    ∀ (fuel : Nat) (c : List Nat) (st : MSt),
    inb c shape = true →
    (∀ i, i < shape.getD dim 0 → getTile st.tiles (base.set dim i) = vals.getD i 0) →
    ∀ i, i < shape.getD dim 0 →
      getTile (move_tile shape dim dir fuel c st).1.tiles (base.set dim i) = vals.getD i 0 := by
  intro fuel c st hc hinv
  cases fuel with
  | zero => exact hinv
  | succ n =>
    have hclen : dim < c.length := by rw [inb_length hc]; exact hdim
    have hi0 : c.getD dim 0 < shape.getD dim 0 := inb_getD_lt hc dim hclen
    by_cases hline : c = base.set dim (c.getD dim 0)
    · have hnoop : move_tile shape dim dir (n + 1) c st = (st, 0, []) := by
        rcases move_tile_view shape dim dir n c st with hv | ⟨hw, hs, hb, hcase⟩
        · exact hv
        · exfalso
          obtain ⟨s, hseq⟩ : ∃ s, stepIndex dir (c.getD dim 0) = s := ⟨_, rfl⟩
          have hsrc : getTile st.tiles c = vals.getD (c.getD dim 0) 0 := by
            conv_lhs => rw [hline]
            exact hinv _ hi0
          have hs' : vals.getD (c.getD dim 0) 0 ≠ 0 := by
            rw [← hsrc]
            exact hs
          have hsLt : s < shape.getD dim 0 := by
            rcases hdir with hd | hd
            · subst hd
              have hse : stepIndex (-1) (c.getD dim 0) = c.getD dim 0 - 1 := by
                simp [stepIndex]
              omega
            · subst hd
              have hse : stepIndex 1 (c.getD dim 0) = c.getD dim 0 + 1 := by
                simp [stepIndex]
              have hw1 : c.getD dim 0 ≠ shape.getD dim 0 - 1 := by
                simpa [wallIndex] using hw
              omega
          have htgt : getTile st.tiles (c.set dim s) = vals.getD s 0 := by
            conv_lhs => rw [hline]
            rw [List.set_set]
            exact hinv s hsLt
          have hneighbor : vals.getD s 0 ≠ 0 := by
            intro hzz
            rcases hdir with hd | hd
            · subst hd
              have hw0 : c.getD dim 0 ≠ 0 := by simpa [wallIndex] using hw
              have hse : stepIndex (-1) (c.getD dim 0) = c.getD dim 0 - 1 := by
                simp [stepIndex]
              have hr : hasZeroThenNonzero vals = false := by
                simpa [reachableEmpty] using hreach
              exact hs' (hzn_false hr s (c.getD dim 0) (by omega) (by omega) hzz)
            · subst hd
              have hse : stepIndex 1 (c.getD dim 0) = c.getD dim 0 + 1 := by
                simp [stepIndex]
              have hr : hasNonzeroThenZero vals = false := by
                simpa [reachableEmpty] using hreach
              exact hs' (hnz_false hr (c.getD dim 0) s (by omega) (by omega) hzz)
          rcases hcase with ⟨htv, -⟩ | ⟨htv, -⟩
          · rw [hseq] at htv
            have hvv : vals.getD s 0 = vals.getD (c.getD dim 0) 0 :=
              htgt.symm.trans (htv.trans hsrc)
            rcases hdir with hd | hd
            · subst hd
              have hw0 : c.getD dim 0 ≠ 0 := by simpa [wallIndex] using hw
              have hse : stepIndex (-1) (c.getD dim 0) = c.getD dim 0 - 1 := by
                simp [stepIndex]
              have hs1 : s + 1 = c.getD dim 0 := by omega
              have hlt : s + 1 < vals.length := by omega
              exact noAdjEqual_getD hadj s hlt hneighbor (by rw [hs1]; exact hvv)
            · subst hd
              have hse : stepIndex 1 (c.getD dim 0) = c.getD dim 0 + 1 := by
                simp [stepIndex]
              have hs1 : s = c.getD dim 0 + 1 := by omega
              have hlt : c.getD dim 0 + 1 < vals.length := by omega
              exact noAdjEqual_getD hadj (c.getD dim 0) hlt hs'
                (by rw [← hs1]; exact hvv.symm)
          · rw [hseq] at htv
            exact hneighbor (htgt.symm.trans htv)
      rw [hnoop]
      exact hinv
    · intro i hi
      rw [move_tile_frame shape dim dir (n + 1) c st (base.set dim i) hclen
        (off_line_ne hclen hline i)]
      exact hinv i hi

theorem moveFold_line (shape : List Nat) (dim : Nat) (dir : Int)
    (hdim : dim < shape.length) (hdir : dir = -1 ∨ dir = 1)
    (base : List Nat) (vals : List Int) (hvlen : vals.length = shape.getD dim 0)
    (hreach : reachableEmpty dir vals = false) (hadj : noAdjEqual vals = true) :
    ∀ (coords : List (List Nat)) (st : MSt),
    (∀ c ∈ coords, inb c shape = true) →
    (∀ i, i < shape.getD dim 0 → getTile st.tiles (base.set dim i) = vals.getD i 0) →
    ∀ i, i < shape.getD dim 0 →
      getTile (moveFold shape dim dir coords st).1.tiles (base.set dim i)
        = vals.getD i 0 := by
  intro coords
  induction coords with
  | nil => intro st _ hinv; exact hinv
  | cons c rest ih =>
    intro st hcs hinv
    exact ih (move_tile shape dim dir (shape.getD dim 0) c st).1
      (fun x hx => hcs x (List.mem_cons_of_mem c hx))
      (move_tile_line shape dim dir hdim hdir base vals hvlen hreach hadj
        (shape.getD dim 0) c st (hcs c (List.mem_cons_self c rest)) hinv)

/-- C6 counterexample: on the rank-1 board `[2,2]` the (only) line contains
no empty cell at all, hence no reachable empty cell in the movement
direction, yet `move(0,-1)` merges the pair and changes the line to `[4,0]`.
The claim as stated is therefore false: absence of reachable empty cells
alone does not keep a line fixed. -/
theorem c6_counterexample :
    Board.WF ⟨[2], .node [.leaf 2, .leaf 2]⟩ ∧
    reachableEmpty (-1) (lineVals ⟨[2], .node [.leaf 2, .leaf 2]⟩ 0 [0]) = false ∧
    lineVals ((Board.move ⟨[2], .node [.leaf 2, .leaf 2]⟩ 0 (-1)).1) 0 [0]
      ≠ lineVals ⟨[2], .node [.leaf 2, .leaf 2]⟩ 0 [0] := by
  refine ⟨⟨rfl, ?_⟩, rfl, ?_⟩
  · intro d hd
    simp at hd
    omega
  · decide

/-- C6 amended.  A line with no reachable empty cell in the movement
direction and no two adjacent equal nonzero tiles is left unchanged by
`Board.move` (the amendment adds the no-adjacent-equal-pair condition,
without which a full line can still merge). -/
theorem c6_amended_line_unchanged :
    ∀ (b : Board) (dimension direction : Int) (base : List Nat), b.WF →
      0 ≤ dimension → dimension < (b.shape.length : Int) →
      (direction = -1 ∨ direction = 1) →
      inb base b.shape = true →
      reachableEmpty direction (lineVals b dimension.toNat base) = false →
      noAdjEqual (lineVals b dimension.toNat base) = true →
      lineVals (b.move dimension direction).1 dimension.toNat base
        = lineVals b dimension.toNat base := by
  intro b dimension direction base hwf h0 hlt hdir hbase hreach hadj
  have hval := moveFull_valid b dimension direction ⟨h0, hlt⟩ hdir
  have hmove1 : (b.move dimension direction).1
      = ⟨b.shape, (moveFold b.shape dimension.toNat direction
          (generate_sequential_coordinates b.shape dimension.toNat direction)
          ⟨b.tiles, []⟩).1.tiles⟩ := by
    unfold Board.move
    rw [hval]
  have hline := moveFold_line b.shape dimension.toNat direction
    (toNat_lt_length h0 hlt) hdir base (lineVals b dimension.toNat base)
    (lineVals_length b dimension.toNat base) hreach hadj
    (generate_sequential_coordinates b.shape dimension.toNat direction)
    ⟨b.tiles, []⟩
    (seqCoords_inb b.shape dimension.toNat direction hwf.2)
    (fun i hi => (lineVals_getD b dimension.toNat base i hi).symm)
  rw [hmove1]
  unfold lineVals
  apply List.map_congr_left
  intro i hi
  have hiL : i < b.shape.getD dimension.toNat 0 := List.mem_range.mp hi
  have := hline i hiL
  rw [this]
  exact (lineVals_getD b dimension.toNat base i hiL)

/-- Witness for C6 amended on the rank-1 board `[2,4,0]`: the line is
compact towards the origin with no adjacent equal pair, and moving towards
the origin leaves it unchanged. -/
theorem c6_amended_line_unchanged_witness :
    lineVals ((Board.move ⟨[3], .node [.leaf 2, .leaf 4, .leaf 0]⟩ 0 (-1)).1) 0 [0]
      = lineVals ⟨[3], .node [.leaf 2, .leaf 4, .leaf 0]⟩ 0 [0] := by
  refine c6_amended_line_unchanged ⟨[3], .node [.leaf 2, .leaf 4, .leaf 0]⟩ 0 (-1) [0]
    ⟨rfl, ?_⟩ (by omega) (by simp) (.inl rfl) (by decide) (by decide) (by decide)
  intro d hd
  simp at hd
  omega

/-! ## Deep copies do not alias -/

theorem getD_append_left {α : Type} (l₁ l₂ : List α) (i : Nat) (d : α)
    (h : i < l₁.length) : (l₁ ++ l₂).getD i d = l₁.getD i d := by
  induction l₁ generalizing i with
  | nil => simp at h
  | cons a as ih =>
    cases i with
    | zero => simp
    | succ n =>
      simp only [List.cons_append, List.getD_cons_succ]
      exact ih n (by simpa using h)

theorem getD_append_right {α : Type} (l₁ l₂ : List α) (j : Nat) (d : α) :
    (l₁ ++ l₂).getD (l₁.length + j) d = l₂.getD j d := by
  induction l₁ with
  | nil => simp
  | cons a as ih =>
    simp only [List.cons_append, List.length_cons]
    have : as.length + 1 + j = (as.length + j) + 1 := by omega
    rw [this, List.getD_cons_succ, ih]

theorem getD_of_le {α : Type} (l : List α) (i : Nat) (d : α) (h : l.length ≤ i) :
    l.getD i d = d := by
  induction l generalizing i with
  | nil => cases i <;> rfl
  | cons a as ih =>
    cases i with
    | zero => simp at h
    | succ n =>
      rw [List.getD_cons_succ]
      exact ih n (by simpa using h)

theorem map_eq_of_getD {α β : Type} (f g : α → β) (l₁ l₂ : List α) (d : α)
    (hlen : l₁.length = l₂.length)
    (hpt : ∀ j, j < l₂.length → f (l₁.getD j d) = g (l₂.getD j d)) :
    l₁.map f = l₂.map g := by
  induction l₁ generalizing l₂ with
  | nil =>
    cases l₂ with
    | nil => rfl
    | cons b bs => simp at hlen
  | cons a as ih =>
    cases l₂ with
    | nil => simp at hlen
    | cons b bs =>
      simp only [List.map_cons, List.cons.injEq]
      refine ⟨hpt 0 (by simp), ?_⟩
      exact ih bs (by simpa using hlen)
        (fun j hj => hpt (j + 1) (by simpa using hj))

theorem matz_succ (H : List (List Cell)) (fuel a : Nat) :
    matz H (fuel + 1) a = .node ((H.getD a []).map (cellMatz H fuel)) := by
  simp only [matz]
  congr 1

theorem closedHeap_spec {H : List (List Cell)} (h : closedHeap H = true) :
    ∀ i, i < H.length → ∀ c ∈ H.getD i [], ∀ b, c = Cell.ref b → b < H.length := by
  intro i hi c hc b hb
  subst hb
  simp only [closedHeap, List.all_eq_true] at h
  have := h (H.getD i []) (getD_mem H i [] hi) (Cell.ref b) hc
  simpa using this

/-- Materialization only looks at addresses below `n` when all of them only
reference addresses below `n`; two stores agreeing there materialize every
such address identically. -/
theorem matz_agree : ∀ (fuel : Nat) (H H2 : List (List Cell)) (n : Nat),
    (∀ i, i < n → H2.getD i [] = H.getD i []) →
    (∀ i, i < n → ∀ c ∈ H.getD i [], ∀ b, c = Cell.ref b → b < n) →
    ∀ a, a < n → matz H2 fuel a = matz H fuel a := by
  intro fuel
  induction fuel with
  | zero => intro _ _ _ _ _ _ _; rfl
  | succ m ih =>
    intro H H2 n hagree hclosed a ha
    rw [matz_succ, matz_succ, hagree a ha]
    congr 1
    apply List.map_congr_left
    intro c hc
    cases c with
    | val nn => rfl
    | ref b =>
      simp only [cellMatz]
      exact ih H H2 n hagree hclosed b (hclosed a ha (Cell.ref b) hc b rfl)

/-- Specification of `copyCells` at a fixed fuel, assuming the
specification of `deepcopyA` at the same fuel: the store only grows by
fresh objects whose references stay in the fresh region, and each copied
cell materializes like the original in any further extension. -/
theorem copyCells_spec (fuel : Nat)
    (hP : ∀ (H0 mid : List (List Cell)) (a : Nat),
      closedHeap H0 = true → a < H0.length →
      ∃ ext a1, deepcopyA fuel (H0 ++ mid) a = (H0 ++ (mid ++ ext), a1) ∧
        H0.length + mid.length ≤ a1 ∧
        (∀ obj ∈ ext, ∀ c ∈ obj, ∀ b, c = Cell.ref b → H0.length + mid.length ≤ b) ∧
        (∀ e, matz (H0 ++ (mid ++ (ext ++ e))) fuel a1 = matz H0 fuel a)) :
    ∀ (cells : List Cell) (H0 mid : List (List Cell)),
      closedHeap H0 = true →
      (∀ c ∈ cells, ∀ b, c = Cell.ref b → b < H0.length) →
      ∃ ext cells1, copyCells fuel (H0 ++ mid) cells = (H0 ++ (mid ++ ext), cells1) ∧
        cells1.length = cells.length ∧
        (∀ obj ∈ ext, ∀ c ∈ obj, ∀ b, c = Cell.ref b → H0.length + mid.length ≤ b) ∧
        (∀ c ∈ cells1, ∀ b, c = Cell.ref b → H0.length + mid.length ≤ b) ∧
        (∀ e j, j < cells.length →
          cellMatz (H0 ++ (mid ++ (ext ++ e))) fuel (cells1.getD j (.val 0))
            = cellMatz H0 fuel (cells.getD j (.val 0))) := by
  intro cells
  induction cells with
  | nil =>
    intro H0 mid hcl _
    refine ⟨[], [], by simp [copyCells], rfl, by simp, by simp, ?_⟩
    intro e j hj
    simp at hj
  | cons c0 rest ih =>
    intro H0 mid hcl hrefs
    cases c0 with
    | val n =>
      obtain ⟨ext, cellsr, heq, hlen, hfx, hfc, hpt⟩ := ih H0 mid hcl
        (fun c hc b hb => hrefs c (List.mem_cons_of_mem _ hc) b hb)
      refine ⟨ext, .val n :: cellsr, ?_, by simpa using hlen, hfx, ?_, ?_⟩
      · simp only [copyCells]
        rw [heq]
      · intro c hc b hb
        rcases List.mem_cons.mp hc with hc0 | hcr
        · rw [hc0] at hb; cases hb
        · exact hfc c hcr b hb
      · intro e j hj
        cases j with
        | zero => rfl
        | succ m =>
          simp only [List.getD_cons_succ]
          exact hpt e m (by simpa using hj)
    | ref b =>
      have hb : b < H0.length := hrefs (.ref b) (List.mem_cons_self _ _) b rfl
      obtain ⟨extb, b1, heqb, hgeb, hfb, hmb⟩ := hP H0 mid b hcl hb
      obtain ⟨extr, cellsr, heqr, hlenr, hfr, hcr, hptr⟩ := ih H0 (mid ++ extb) hcl
        (fun c hc bb hb2 => hrefs c (List.mem_cons_of_mem _ hc) bb hb2)
      have h1 : (deepcopyA fuel (H0 ++ mid) b).1 = H0 ++ (mid ++ extb) := by rw [heqb]
      have h2 : (deepcopyA fuel (H0 ++ mid) b).2 = b1 := by rw [heqb]
      have h3 : (copyCells fuel (H0 ++ (mid ++ extb)) rest).1
          = H0 ++ ((mid ++ extb) ++ extr) := by rw [heqr]
      have h4 : (copyCells fuel (H0 ++ (mid ++ extb)) rest).2 = cellsr := by rw [heqr]
      refine ⟨extb ++ extr, .ref b1 :: cellsr, ?_, by simpa using hlenr, ?_, ?_, ?_⟩
      · simp only [copyCells]
        rw [h1, h2, h3, h4]
        simp [List.append_assoc]
      · intro obj hobj c hc bb hb2
        rcases List.mem_append.mp hobj with ho | ho
        · exact hfb obj ho c hc bb hb2
        · have := hfr obj ho c hc bb hb2
          simp only [List.length_append] at this
          omega
      · intro c hc bb hb2
        rcases List.mem_cons.mp hc with hc0 | hcr2
        · rw [hc0] at hb2
          have : b1 = bb := by injection hb2
          omega
        · have := hcr c hcr2 bb hb2
          simp only [List.length_append] at this
          omega
      · intro e j hj
        cases j with
        | zero =>
          simp only [List.getD_cons_zero, cellMatz]
          have := hmb (extr ++ e)
          calc matz (H0 ++ (mid ++ ((extb ++ extr) ++ e))) fuel b1
              = matz (H0 ++ (mid ++ (extb ++ (extr ++ e)))) fuel b1 := by
                simp [List.append_assoc]
            _ = matz H0 fuel b := hmb (extr ++ e)
        | succ m =>
          simp only [List.getD_cons_succ]
          have := hptr e m (by simpa using hj)
          calc cellMatz (H0 ++ (mid ++ ((extb ++ extr) ++ e))) fuel (cellsr.getD m (.val 0))
              = cellMatz (H0 ++ ((mid ++ extb) ++ (extr ++ e))) fuel
                  (cellsr.getD m (.val 0)) := by
                simp [List.append_assoc]
            _ = cellMatz H0 fuel (rest.getD m (.val 0)) := hptr e m (by simpa using hj)

/-- Specification of `deepcopyA`: the copy lives entirely in freshly
appended objects, references only the fresh region, and materializes, in
the extended store and any further extension of it, exactly like the
original address does in the original store. -/
theorem deepcopyA_spec :
    ∀ (fuel : Nat) (H0 mid : List (List Cell)) (a : Nat),
      closedHeap H0 = true → a < H0.length →
      ∃ ext a1, deepcopyA fuel (H0 ++ mid) a = (H0 ++ (mid ++ ext), a1) ∧
        H0.length + mid.length ≤ a1 ∧
        (∀ obj ∈ ext, ∀ c ∈ obj, ∀ b, c = Cell.ref b → H0.length + mid.length ≤ b) ∧
        (∀ e, matz (H0 ++ (mid ++ (ext ++ e))) fuel a1 = matz H0 fuel a) := by
  intro fuel
  induction fuel with
  | zero =>
    intro H0 mid a hcl ha
    refine ⟨[[]], (H0 ++ mid).length, ?_, by simp, ?_, ?_⟩
    · simp [deepcopyA, List.append_assoc]
    · intro obj hobj c hc bb hb2
      simp only [List.mem_singleton] at hobj
      rw [hobj] at hc
      simp at hc
    · intro e
      rfl
  | succ m ih =>
    intro H0 mid a hcl ha
    have hobj : (H0 ++ mid).getD a [] = H0.getD a [] :=
      getD_append_left H0 mid a [] ha
    have hrefs : ∀ c ∈ H0.getD a [], ∀ b, c = Cell.ref b → b < H0.length :=
      closedHeap_spec hcl a ha
    obtain ⟨extc, cells1, heq, hlen, hfx, hfc, hpt⟩ :=
      copyCells_spec m ih (H0.getD a []) H0 mid hcl hrefs
    have h1 : (copyCells m (H0 ++ mid) ((H0 ++ mid).getD a [])).1
        = H0 ++ (mid ++ extc) := by rw [hobj, heq]
    have h2 : (copyCells m (H0 ++ mid) ((H0 ++ mid).getD a [])).2 = cells1 := by
      rw [hobj, heq]
    refine ⟨extc ++ [cells1], H0.length + (mid.length + extc.length), ?_, by omega, ?_, ?_⟩
    · simp only [deepcopyA]
      rw [h1, h2]
      simp [List.append_assoc]
    · intro obj hobj2 c hc bb hb2
      rcases List.mem_append.mp hobj2 with ho | ho
      · exact hfx obj ho c hc bb hb2
      · simp only [List.mem_singleton] at ho
        rw [ho] at hc
        exact hfc c hc bb hb2
    · intro e
      rw [matz_succ, matz_succ]
      have hheap : H0 ++ (mid ++ ((extc ++ [cells1]) ++ e))
          = (H0 ++ (mid ++ extc)) ++ ([cells1] ++ e) := by
        simp [List.append_assoc]
      have hlenX : (H0 ++ (mid ++ extc)).length = H0.length + (mid.length + extc.length) := by
        simp
      have hgetD : (H0 ++ (mid ++ ((extc ++ [cells1]) ++ e))).getD
          (H0.length + (mid.length + extc.length)) [] = cells1 := by
        rw [hheap, ← hlenX]
        have := getD_append_right (H0 ++ (mid ++ extc)) ([cells1] ++ e) 0 ([] : List Cell)
        simpa using this
      rw [hgetD]
      apply congrArg Tiles.node
      apply map_eq_of_getD _ _ _ _ (Cell.val 0) hlen
      intro j hj
      have := hpt ([cells1] ++ e) j hj
      calc cellMatz (H0 ++ (mid ++ ((extc ++ [cells1]) ++ e))) m (cells1.getD j (.val 0))
          = cellMatz (H0 ++ (mid ++ (extc ++ ([cells1] ++ e)))) m (cells1.getD j (.val 0)) := by
            simp [List.append_assoc]
        _ = cellMatz H0 m ((H0.getD a []).getD j (.val 0)) := hpt ([cells1] ++ e) j hj

/-- Reference-following from an address in the fresh region never escapes
into the original region when the store is `highClosed`. -/
theorem followH_high (K : List (List Cell)) (n : Nat) (hhigh : highClosed n K) :
    ∀ (path : List Nat) (a r : Nat), n ≤ a → followH K a path = some r → n ≤ r := by
  intro path
  induction path with
  | nil =>
    intro a r ha hf
    simp only [followH] at hf
    injection hf with h
    omega
  | cons i rest ih =>
    intro a r ha hf
    simp only [followH] at hf
    split at hf
    · rename_i b hcell
      by_cases hi : i < (K.getD a []).length
      · have hmem : (K.getD a []).getD i (.val 0) ∈ K.getD a [] := getD_mem _ _ _ hi
        rw [hcell] at hmem
        exact ih b r (hhigh a ha _ hmem b rfl) hf
      · rw [getD_of_le _ _ _ (le_of_not_lt hi)] at hcell
        cases hcell
    · cases hf

/-- A tile write through an address in the fresh region leaves every object
in the original region untouched and keeps the store `highClosed`. -/
theorem setTileH_inv (K : List (List Cell)) (n aC : Nat) (loc : List Nat) (v : Int)
    (hhigh : highClosed n K) (haC : n ≤ aC) :
    (∀ i, i < n → (setTileH K aC loc v).getD i [] = K.getD i []) ∧
    highClosed n (setTileH K aC loc v) := by
  rcases hlast : loc.getLast? with _ | last
  · simp only [setTileH, hlast]
    exact ⟨fun i _ => trivial, hhigh⟩
  · rcases haddr : followH K aC loc.dropLast with _ | addr
    · simp only [setTileH, hlast, haddr]
      exact ⟨fun i _ => trivial, hhigh⟩
    · have haddrn : n ≤ addr := followH_high K n hhigh _ aC addr haC haddr
      simp only [setTileH, hlast, haddr]
      constructor
      · intro i hi
        exact getD_set_ne _ _ _ _ _ (by omega)
      · intro a hna c hc b hb
        by_cases hea : addr = a
        · subst hea
          by_cases hlt : addr < K.length
          · rw [getD_set_self _ _ _ _ hlt] at hc
            rcases List.mem_or_eq_of_mem_set hc with hcm | hce
            · exact hhigh addr hna c hcm b hb
            · rw [hce] at hb
              cases hb
          · rw [getD_of_le] at hc
            · simp at hc
            · simpa using le_of_not_lt hlt
        · rw [getD_set_ne _ _ _ _ _ hea] at hc
          exact hhigh a hna c hc b hb

/-- A whole sequence of tile writes through a fresh root leaves every object
in the original region untouched. -/
theorem applyWrites_inv (n : Nat) :
    ∀ (writes : List (List Nat × Int)) (K : List (List Cell)) (aC : Nat),
      highClosed n K → n ≤ aC →
      (∀ i, i < n → (applyWrites K aC writes).getD i [] = K.getD i []) ∧
      highClosed n (applyWrites K aC writes) := by
  intro writes
  induction writes with
  | nil =>
    intro K aC hh _
    exact ⟨fun i _ => rfl, hh⟩
  | cons w rest ih =>
    intro K aC hh haC
    obtain ⟨loc, v⟩ := w
    obtain ⟨hlow1, hh1⟩ := setTileH_inv K n aC loc v hh haC
    obtain ⟨hlow2, hh2⟩ := ih (setTileH K aC loc v) aC hh1 haC
    simp only [applyWrites]
    refine ⟨?_, hh2⟩
    intro i hi
    rw [hlow2 i hi, hlow1 i hi]

/-- **C10** (implicit, frame effect). `Board.__init__` runs
`copy.deepcopy(load_tiles)` before storing the layout, so the stored tiles
do not alias the caller's list. In the store model: deep-copying the
caller's object at address `aL` yields a root `aC` in freshly appended
objects that materializes to the same `Tiles` value, and any sequence of
`__set_tile` writes through the copied root (which is all the mutation
`place` and `move` ever perform) leaves the materialization of the
caller's original object byte-for-byte unchanged. -/
theorem c10_deepcopy_no_alias
    (H : List (List Cell)) (aL fuel : Nat) (writes : List (List Nat × Int))
    (hcl : closedHeap H = true) (ha : aL < H.length) :
    matz (deepcopyA fuel H aL).1 fuel (deepcopyA fuel H aL).2 = matz H fuel aL ∧
    matz (applyWrites (deepcopyA fuel H aL).1 (deepcopyA fuel H aL).2 writes)
        fuel aL = matz H fuel aL := by
  obtain ⟨ext, a1, heq, hge, hfresh, hm⟩ := deepcopyA_spec fuel H [] aL hcl ha
  simp only [List.append_nil, List.nil_append, List.length_nil,
    Nat.add_zero] at heq hge hfresh hm
  have h1 : (deepcopyA fuel H aL).1 = H ++ ext := by rw [heq]
  have h2 : (deepcopyA fuel H aL).2 = a1 := by rw [heq]
  have hm0 : matz (H ++ ext) fuel a1 = matz H fuel aL := by
    have := hm []
    simpa using this
  have hhigh : highClosed H.length (H ++ ext) := by
    intro a hna c hc b hb
    by_cases hlt : a < (H ++ ext).length
    · have hext : a - H.length < ext.length := by
        simp only [List.length_append] at hlt
        omega
      have hget : (H ++ ext).getD a [] = ext.getD (a - H.length) [] := by
        have := getD_append_right H ext (a - H.length) ([] : List Cell)
        rwa [show H.length + (a - H.length) = a from by omega] at this
      rw [hget] at hc
      exact hfresh _ (getD_mem _ _ _ hext) c hc b hb
    · rw [getD_of_le _ _ _ (le_of_not_lt hlt)] at hc
      simp at hc
  obtain ⟨hlow, _⟩ := applyWrites_inv H.length writes (H ++ ext) a1 hhigh hge
  refine ⟨by rw [h1, h2, hm0], ?_⟩
  rw [h1, h2]
  have hagree : ∀ i, i < H.length →
      (applyWrites (H ++ ext) a1 writes).getD i [] = H.getD i [] := by
    intro i hi
    rw [hlow i hi, getD_append_left _ _ _ _ hi]
  exact matz_agree fuel H (applyWrites (H ++ ext) a1 writes) H.length hagree
    (fun i hi => closedHeap_spec hcl i hi) aL ha

theorem c10_deepcopy_no_alias_witness :
    closedHeap [[Cell.val 2, Cell.ref 1], [Cell.val 3]] = true ∧
    0 < ([[Cell.val 2, Cell.ref 1], [Cell.val 3]] : List (List Cell)).length ∧
    (matz (deepcopyA 2 [[Cell.val 2, Cell.ref 1], [Cell.val 3]] 0).1 2
        (deepcopyA 2 [[Cell.val 2, Cell.ref 1], [Cell.val 3]] 0).2
      = matz [[Cell.val 2, Cell.ref 1], [Cell.val 3]] 2 0 ∧
     matz (applyWrites (deepcopyA 2 [[Cell.val 2, Cell.ref 1], [Cell.val 3]] 0).1
          (deepcopyA 2 [[Cell.val 2, Cell.ref 1], [Cell.val 3]] 0).2 [([0], 7)]) 2 0
      = matz [[Cell.val 2, Cell.ref 1], [Cell.val 3]] 2 0) :=
  ⟨rfl, by decide,
    c10_deepcopy_no_alias [[Cell.val 2, Cell.ref 1], [Cell.val 3]] 0 2 [([0], 7)]
      rfl (by decide)⟩

/-- **C5** (code bug).  The claimed score formula — the depth-first sum of
the truncated `T * (log2 T - 1)` — evaluates to `9007199254740991 * 51` on
a board whose single nonzero tile is `2 ^ 53 - 1 = 9007199254740991`, a
layout the program accepts: 21 characters, far below the 200-character
ceiling (third conjunct), and the float validation passes it (see the C7
theorem).  The program itself returns `9007199254740991 * 52`: CPython
evaluates `math.log(9007199254740991, 2)` to exactly `53.0`, because the
exact logarithm `52.9999999999999998...` lies within half an ulp of `53.0`,
so `int(log(T,2) - 1)` is `52` where the claimed formula truncates
`51.9999...` to `51`.  `Round.get_score` therefore differs from the claimed
value — second conjunct — on an accepted tile configuration. -/
theorem c5_score_float_divergence :
    scoreSpec (.node [.leaf 9007199254740991, .leaf 0]) = 9007199254740991 * 51 ∧
    (9007199254740991 * 52 : Int)
      ≠ scoreSpec (.node [.leaf 9007199254740991, .leaf 0]) ∧
    reprLen (.node [.leaf 9007199254740991, .leaf 0]) ≤ 200 :=
  ⟨by decide, by decide, by decide⟩

/-- **C7** (code bug).  The per-value check of `validate_tiles` evaluates
`math.log(x, 2)` in binary64.  The conversion of the integer argument to a
double — embedded as `roundDouble` — sends the non-power of two
`2 ^ 53 + 1 = 9007199254740993` to the same double
`9007199254740992 = 2 ^ 53` as that true power itself (first two
conjuncts), so the check `log(x,2) % 1 != 0` computes on identical input
for the two values and necessarily returns the same verdict: it cannot
reject the non-power `2 ^ 53 + 1` while accepting the power `2 ^ 53`.
Measured CPython accepts both (`math.log` returns exactly `53.0`), likewise
accepts the non-power `2 ^ 53 - 1` (exact logarithm within half an ulp of
`53.0`) and the value `1` (logarithm `0.0`, though `1` is not `2 ^ k` with
`k ≥ 1`), while rejecting genuine powers such as `2 ^ 29`, whose float
logarithm is `29.000000000000004`.  The 21-character layout holding
`2 ^ 53 + 1` is far below the 200-character ceiling (last conjunct), so the
claimed leaf-value invariant fails on an accepted board and the claimed
rejection of positive non-powers of two does not take place. -/
theorem c7_float_validation_blind :
    roundDouble 9007199254740993 = 9007199254740992 ∧
    roundDouble 9007199254740992 = 9007199254740992 ∧
    (∀ k : Nat, (9007199254740993 : Nat) ≠ 2 ^ k) ∧
    reprLen (.node [.leaf 9007199254740993, .leaf 0]) ≤ 200 := by
  refine ⟨by decide, by decide, ?_, by decide⟩
  intro k h
  have e : (9007199254740993 : Nat) = 2 ^ 53 + 1 := by norm_num
  rw [e] at h
  rcases le_or_lt k 53 with hk | hk
  · have h1 : (2 : Nat) ^ k ≤ 2 ^ 53 := Nat.pow_le_pow_right (by norm_num) hk
    omega
  · have h1 : (2 : Nat) ^ 53 * 2 ≤ 2 ^ k := by
      have h54 : (2 : Nat) ^ 54 ≤ 2 ^ k := Nat.pow_le_pow_right (by norm_num) hk
      calc (2 : Nat) ^ 53 * 2 = 2 ^ 54 := by ring
        _ ≤ 2 ^ k := h54
    have h2 : 1 < (2 : Nat) ^ 53 := by norm_num
    omega
